import Mathlib

/-!
# nvmath `MTRand` (src/nvmath/Random.h): a Mersenne twister, embedded in Lean

Machine words (`uint`, `uint32`) are natural numbers; every place where the
C++ arithmetic wraps is an explicit `% 2 ^ 32`.  The state array
`uint state[N]` is a list of exactly `N` words, read and written through
natural-number offsets; the pointer `next` is its offset from `state`.
-/

namespace MTRand

/-- The constant `N = 624` of `enum { N = 624 }`: length of the state vector. -/
abbrev N : Nat := 624

/-- The constant `M = 397` of `enum { M = 397 }`. -/
abbrev M : Nat := 397

/-- The array `uint state[N]`: exactly `N` words. -/
structure StateVec where
  words : List Nat
  length_eq : words.length = N

/-- Reading `state[i]` (an offset outside the array reads as `0`). -/
def StateVec.read (st : StateVec) (i : Nat) : Nat :=
  st.words.getD i 0

/-- The store `state[i] = v` (a store outside the array changes nothing). -/
def StateVec.write (st : StateVec) (i v : Nat) : StateVec :=
  ⟨st.words.set i v, by rw [List.length_set]; exact st.length_eq⟩

/-- The data members of `class MTRand`: `uint state[N]`, the pointer `next`
(as its offset into `state`) and `int left`. -/
structure Gen where
  state : StateVec
  next : Nat
  left : Int

/-- Source `uint hiBit( uint u )`: `u & 0x80000000U`. -/
def hiBit (u : Nat) : Nat := u &&& 0x80000000

/-- Source `uint loBit( uint u )`: `u & 0x00000001U`. -/
def loBit (u : Nat) : Nat := u &&& 0x00000001

/-- Source `uint loBits( uint u )`: `u & 0x7fffffffU`. -/
def loBits (u : Nat) : Nat := u &&& 0x7fffffff

/-- Source `uint mixBits( uint u, uint v )`: `hiBit(u) | loBits(v)`. -/
def mixBits (u v : Nat) : Nat := hiBit u ||| loBits v

/-- The operator `~` on a `uint`: all 32 bits flipped. -/
def not32 (u : Nat) : Nat := 0xffffffff - u % 2 ^ 32

/-- Source `uint twist( uint m, uint s0, uint s1 )`:
`m ^ (mixBits(s0, s1) >> 1) ^ ((~loBit(s1) + 1) & 0x9908b0dfU)`, the sum
`~loBit(s1) + 1` wrapping at 32 bits. -/
def twist (m s0 s1 : Nat) : Nat :=
  m ^^^ (mixBits s0 s1 >>> 1) ^^^ (((not32 (loBit s1) + 1) % 2 ^ 32) &&& 0x9908b0df)

/-- The loop `for ( ; i < N; ++i ) { *s++ = ( 1812433253UL * ( *r ^ (*r >> 30) ) + i ) & 0xffffffffUL; r++; }`
of `initialize`; `s` and `r` are the offsets of the two pointers, the first
argument bounds the number of iterations.  The product and the sum are taken
in `unsigned long`; its wrap, at `2 ^ 32` or at `2 ^ 64`, is absorbed by the
mask `0xffffffffUL`. -/
def initializeLoop : Nat → Nat → Nat → Nat → StateVec → StateVec
  | 0, _, _, _, st => st
  | fuel + 1, i, s, r, st =>
    if i < N then
      initializeLoop fuel (i + 1) (s + 1) (r + 1)
        (st.write s ((1812433253 * (st.read r ^^^ (st.read r >>> 30)) + i) &&& 0xffffffff))
    else st

/-- Source `void initialize( uint32 seed )`: `*s++ = seed & 0xffffffffUL`, then the
loop from `i = 1`. -/
def initializeState (seed : Nat) (g : Gen) : Gen :=
  { g with state := initializeLoop N 1 1 0 (g.state.write 0 (seed &&& 0xffffffff)) }

/-- The first loop of `reload`: `for ( i = N - M; i--; ++p ) *p = twist( p[M], p[0], p[1] );`
(the argument `i` is the value tested by `i--`). -/
def reloadLoop1 : Nat → Nat → StateVec → Nat × StateVec
  | 0, p, st => (p, st)
  | i + 1, p, st =>
    reloadLoop1 i (p + 1) (st.write p (twist (st.read (p + M)) (st.read p) (st.read (p + 1))))

/-- The second loop of `reload`: `for ( i = M; --i; ++p ) *p = twist( p[M - N], p[0], p[1] );`
(the argument `i` is the value before `--i`). -/
def reloadLoop2 : Nat → Nat → StateVec → Nat × StateVec
  | 0, p, st => (p, st)
  | i + 1, p, st =>
    if i ≠ 0 then
      reloadLoop2 i (p + 1)
        (st.write p (twist (st.read (p + M - N)) (st.read p) (st.read (p + 1))))
    else (p, st)

/-- Source `void reload()`: the two loops, the last word
`*p = twist( p[M - N], p[0], state[0] )`, then `left = N, next = state`. -/
def reload (g : Gen) : Gen :=
  let r1 := reloadLoop1 (N - M) 0 g.state
  let r2 := reloadLoop2 M r1.1 r1.2
  let p := r2.1
  let st := r2.2
  { state := st.write p (twist (st.read (p + M - N)) (st.read p) (st.read 0)),
    next := 0,
    left := N }

/-- Source `void seed( uint s )`: `initialize(s); reload();`. -/
def seed (s : Nat) (g : Gen) : Gen :=
  reload (initializeState s g)

/-- Source `uint get()`: reload when `left == 0`, `left--`, `s1 = *next++`, then the
four tempering lines; returns the value and the generator afterwards. -/
def get (g : Gen) : Nat × Gen :=
  let g1 := if g.left = 0 then reload g else g
  let s1 := g1.state.read g1.next
  let g2 : Gen := { state := g1.state, next := g1.next + 1, left := g1.left - 1 }
  let s1 := s1 ^^^ (s1 >>> 11)
  let s1 := s1 ^^^ (((s1 <<< 7) % 2 ^ 32) &&& 0x9d2c5680)
  let s1 := s1 ^^^ (((s1 <<< 15) % 2 ^ 32) &&& 0xefc60000)
  (s1 ^^^ (s1 >>> 18), g2)

/-- The generator on which a call of `get()` reads its word: `reload()` has
run when the call found `left == 0`, and nothing has changed otherwise. -/
def refreshed (g : Gen) : Gen :=
  if g.left = 0 then reload g else g

/-- Modelled from the spec: `nextPowerOfTwo` of nvcore/Utils.h, which is not
among the sources; it returns the smallest power of two that is at least its
argument, modulo `2 ^ 32`.  The exponent is searched upwards from `0`; the
first argument bounds the search. -/
def nextPowerOfTwoExp : Nat → Nat → Nat → Nat
  | 0, k, _ => k
  | fuel + 1, k, n => if n ≤ 2 ^ k then k else nextPowerOfTwoExp fuel (k + 1) n

/-- Modelled from the spec: `uint nextPowerOfTwo( uint x )` of nvcore/Utils.h,
which is not among the sources: the smallest power of two that is at least
`x`, modulo `2 ^ 32`. -/
def nextPowerOfTwo (x : Nat) : Nat :=
  2 ^ nextPowerOfTwoExp 32 0 x % 2 ^ 32

/-- The mask of `getRange`: `np2 = nextPowerOfTwo( max + 1 )`, `mask = np2 - 1`,
both in wrapping 32-bit arithmetic. -/
def rangeMask (max : Nat) : Nat :=
  (nextPowerOfTwo ((max + 1) % 2 ^ 32) + (2 ^ 32 - 1)) % 2 ^ 32

/-- Modelled from the spec: the constant `NV_UINT32_MAX` of nvcore, which is
not among the sources: `UINT32_MAX`, the largest unsigned 32-bit value. -/
abbrev NV_UINT32_MAX : Nat := 0xffffffff

/-- The loop `do { n = get() & mask; } while ( n > max );` of `getRange`; the
first argument bounds the number of draws, and `none` means that this bound
was reached. -/
def getRangeLoop : Nat → Nat → Nat → Gen → Option (Nat × Gen)
  | 0, _, _, _ => none
  | fuel + 1, max, mask, g =>
    let n := (get g).1 &&& mask
    if n > max then getRangeLoop fuel max mask (get g).2 else some (n, (get g).2)

/-- Source `uint getRange( uint max )`: `if (max == 0) return 0;`,
`if (max == NV_UINT32_MAX) return get();`, then the rejection loop with at most
`fuel` draws. -/
def getRange (fuel max : Nat) (g : Gen) : Option (Nat × Gen) :=
  if max = 0 then some (0, g)
  else if max = NV_UINT32_MAX then some (get g)
  else getRangeLoop fuel max (rangeMask max) g

/-- The generator after `n` successive calls of `get()`. -/
def afterDraws : Nat → Gen → Gen
  | 0, g => g
  | n + 1, g => afterDraws n (get g).2

/-- The value returned by call number `n + 1` of `get()`, that is after `n`
earlier calls. -/
def nthDraw (n : Nat) (g : Gen) : Nat :=
  (get (afterDraws n g)).1

/-- The number of calls of `reload()` made by `n` successive calls of `get()`:
a call of `get()` runs `reload()` once when it finds `left == 0`, and not at
all otherwise. -/
def reloadCount : Nat → Gen → Nat
  | 0, _ => 0
  | n + 1, g => (if g.left = 0 then 1 else 0) + reloadCount n (get g).2

/-- The tempering transform as the specification writes it:
`y ^= y >> 11; y ^= (y << 7) & 0x9D2C5680; y ^= (y << 15) & 0xEFC60000; y ^= y >> 18`. -/
def temperSpec (y : Nat) : Nat :=
  let y1 := y ^^^ (y >>> 11)
  let y2 := y1 ^^^ ((y1 <<< 7) &&& 0x9D2C5680)
  let y3 := y2 ^^^ ((y2 <<< 15) &&& 0xEFC60000)
  y3 ^^^ (y3 >>> 18)

/-- The seeding recurrence as the specification writes it: `state[0] = value`,
`state[i] = (1812433253 * (state[i-1] XOR (state[i-1] >> 30)) + i) mod 2^32`. -/
def initWordSpec (value : Nat) : Nat → Nat
  | 0 => value
  | i + 1 =>
    (1812433253 * (initWordSpec value i ^^^ (initWordSpec value i >>> 30)) + (i + 1)) % 2 ^ 32

/-- A generator whose words are all `0`, with `next` at `state[0]` and
`left = N`. -/
def zeroGen : Gen :=
  ⟨⟨List.replicate N 0, List.length_replicate _ _⟩, 0, N⟩

/-- A generator state is one of 32-bit words when every word of `state` is
below `2 ^ 32`. -/
def Words32 (g : Gen) : Prop :=
  ∀ i, g.state.read i < 2 ^ 32

/-- The number of raw 32-bit draws `w` that the accept step of `getRange` turns
into the value `v`: those with `(w & mask) == v`. -/
def drawsTo (mask v : Nat) : Nat :=
  Nat.count (fun w => w &&& mask = v) (2 ^ 32)

/-- The twist as the specification writes it: the word `397` places ahead,
XOR the mixed value `(s0 AND 0x80000000) OR (s1 AND 0x7FFFFFFF)` shifted right
by one, XOR the constant `0x9908B0DF` when the low bit of the mixed value is
`1`. -/
def twistSpec (m s0 s1 : Nat) : Nat :=
  let mix := (s0 &&& 0x80000000) ||| (s1 &&& 0x7FFFFFFF)
  m ^^^ (mix >>> 1) ^^^ (if mix &&& 1 = 1 then 0x9908B0DF else 0)

/-- The generators that a program can hold: a constructor (`MTRand( time_e )`,
`MTRand( uint s = 0 )`) runs `seed` on the fresh object, whatever its memory
held, and each public member function, `seed`, `get` or a `getRange` that
returns, leads from one such generator to the next. -/
inductive Reachable : Gen → Prop
  | ctor (s : Nat) (g0 : Gen) : Reachable (seed s g0)
  | seed (s : Nat) (g : Gen) : Reachable g → Reachable (MTRand.seed s g)
  | get (g : Gen) : Reachable g → Reachable (MTRand.get g).2
  | getRange (fuel max : Nat) (g : Gen) (r : Nat) (g1 : Gen) :
      Reachable g → MTRand.getRange fuel max g = some (r, g1) → Reachable g1

/-- Modelled from the spec: the smallest power of two that is at least `x`, as
a natural number: the value that `nextPowerOfTwo` of nvcore/Utils.h, which is
not among the sources, returns modulo `2 ^ 32`. -/
def nextPowerOfTwoNat (x : Nat) : Nat :=
  2 ^ nextPowerOfTwoExp 32 0 x

/-- One step of the circular loop of the specification, reading the array as
it is at that moment:
`state[i] := twist(state[(i + 397) mod 624], state[i], state[(i + 1) mod 624])`. -/
def circularStep (st : StateVec) (i : Nat) : StateVec :=
  st.write i (twist (st.read ((i + M) % N)) (st.read i) (st.read ((i + 1) % N)))

/-- The circular loop of the specification over `k` indices from `i` on, in
increasing order. -/
def circularLoop : Nat → Nat → StateVec → StateVec
  | 0, _, st => st
  | k + 1, i, st => circularLoop k (i + 1) (circularStep st i)

/-- The refresh as the specification allows it to be rewritten: the single
circular loop over `i = 0, 1, ..., 623`, then the cursor back at `state[0]` and
`remaining = 624`. -/
def reloadCircular (g : Gen) : Gen :=
  { state := circularLoop N 0 g.state, next := 0, left := N }

/-- One assignment `*p = twist( a, b, c )` of `reload`, by the offsets into
`state` that it touches: the offset written and the offsets of the three words
read, in the order of the arguments of `twist`. -/
structure Access where
  written : Int
  read0 : Int
  read1 : Int
  read2 : Int
deriving DecidableEq

/-- The accesses of the first loop of `reload`,
`for ( i = N - M; i--; ++p ) *p = twist( p[M], p[0], p[1] );`. -/
def reloadTrace1 : Nat → Int → List Access
  | 0, _ => []
  | i + 1, p => ⟨p, p + M, p + 0, p + 1⟩ :: reloadTrace1 i (p + 1)

/-- The accesses of the second loop of `reload`,
`for ( i = M; --i; ++p ) *p = twist( p[M - N], p[0], p[1] );`. -/
def reloadTrace2 : Nat → Int → List Access
  | 0, _ => []
  | i + 1, p =>
    if i ≠ 0 then ⟨p, p + ((M : Int) - (N : Int)), p + 0, p + 1⟩ :: reloadTrace2 i (p + 1)
    else []

/-- The accesses of `reload()` in the order they are made: the two loops, `p`
moving by one for each assignment, then
`*p = twist( p[M - N], p[0], state[0] )`. -/
def reloadTrace : List Access :=
  let t1 := reloadTrace1 (N - M) 0
  let p1 : Int := t1.length
  let t2 := reloadTrace2 M p1
  let p2 : Int := p1 + t2.length
  t1 ++ t2 ++ [⟨p2, p2 + ((M : Int) - (N : Int)), p2 + 0, 0⟩]

/-- Carrying out a list of accesses on the state array: each one stores the
twist of the three words it reads. -/
def runTrace : List Access → StateVec → StateVec
  | [], st => st
  | a :: rest, st =>
    runTrace rest (st.write a.written.toNat
      (twist (st.read a.read0.toNat) (st.read a.read1.toNat) (st.read a.read2.toNat)))

/-- A generator all of whose state words are `w`, with `next` at `state[0]` and
`left = N`. -/
def constGen (w : Nat) : Gen :=
  ⟨⟨List.replicate N w, List.length_replicate _ _⟩, 0, N⟩

/-- The part of the twist that acts on the mixed value:
`(x >> 1) ^ (0x9908b0df if the low bit of x is set, else 0)`. -/
def twistMatrix (x : Nat) : Nat :=
  (x >>> 1) ^^^ (if x &&& 1 = 1 then 0x9908b0df else 0)

/-- A state is not degenerate when the part of it that a refresh reads is not
all zero: the top bit of word `0` is set or one of the words `1..623` is not
`0`. -/
def Nondegenerate (st : StateVec) : Prop :=
  hiBit (st.read 0) ≠ 0 ∨ ∃ i, 1 ≤ i ∧ i < N ∧ st.read i ≠ 0

/-- The generator after `q` further calls of `reload()`. -/
def generation : Nat → Gen → Gen
  | 0, g => g
  | q + 1, g => reload (generation q g)

/-! ## The state array -/

theorem StateVec.read_write (st : StateVec) (i v j : Nat) (hi : i < N) :
    (st.write i v).read j = if j = i then v else st.read j := by
  have hlen : i < st.words.length := by rw [st.length_eq]; exact hi
  unfold StateVec.read StateVec.write
  simp only [List.getD_eq_getElem?_getD, List.getElem?_set]
  by_cases h : j = i
  · subst h; simp [hlen]
  · have h2 : ¬ i = j := fun e => h e.symm
    simp [h, h2]

theorem StateVec.read_write_same (st : StateVec) (i v : Nat) (hi : i < N) :
    (st.write i v).read i = v := by
  rw [StateVec.read_write st i v i hi]; simp

theorem StateVec.read_write_ne (st : StateVec) (i v j : Nat) (hi : i < N) (h : j ≠ i) :
    (st.write i v).read j = st.read j := by
  rw [StateVec.read_write st i v j hi]; simp [h]

theorem StateVec.ext_read (a b : StateVec) (h : ∀ i, i < N → a.read i = b.read i) :
    a = b := by
  cases a with
  | mk wa la =>
    cases b with
    | mk wb lb =>
      have hw : wa = wb := by
        apply List.ext_getElem (by rw [la, lb])
        intro i h1 h2
        have hi : i < N := by rw [← la]; exact h1
        have := h i hi
        simpa [StateVec.read, List.getD_eq_getElem?_getD, h1, h2] using this
      subst hw; rfl

/-! ## `initialize` -/

/-- The loop of `initialize`, entered with `s = i` and `r = i - 1`, keeps the
words below `i` and makes every later word the recurrence of its
predecessor. -/
theorem initializeLoop_read (fuel : Nat) :
    ∀ (i : Nat) (st : StateVec), 1 ≤ i → i ≤ N → N ≤ fuel + i → ∀ j, j < N →
      (initializeLoop fuel i i (i - 1) st).read j =
        if j < i then st.read j
        else (1812433253 * ((initializeLoop fuel i i (i - 1) st).read (j - 1) ^^^
          ((initializeLoop fuel i i (i - 1) st).read (j - 1) >>> 30)) + j) % 2 ^ 32 := by
  induction fuel with
  | zero =>
    intro i st _ hi hf j hj
    have : j < i := by omega
    simp [initializeLoop, this]
  | succ fuel ih =>
    intro i st h1 hi hf j hj
    by_cases hlt : i < N
    · have hstep : initializeLoop (fuel + 1) i i (i - 1) st =
          initializeLoop fuel (i + 1) (i + 1) (i + 1 - 1)
            (st.write i ((1812433253 * (st.read (i - 1) ^^^ (st.read (i - 1) >>> 30)) + i)
              &&& 0xffffffff)) := by
        have e : i - 1 + 1 = i + 1 - 1 := by omega
        rw [initializeLoop, if_pos hlt, e]
      rw [hstep]
      have key := ih (i + 1) (st.write i ((1812433253 * (st.read (i - 1) ^^^
        (st.read (i - 1) >>> 30)) + i) &&& 0xffffffff)) (by omega) (by omega) (by omega)
      by_cases hji : j < i
      · rw [key j hj, if_pos (by omega), if_pos hji]
        exact StateVec.read_write_ne _ _ _ _ hlt (by omega)
      · by_cases hje : j = i
        · subst hje
          rw [if_neg hji]
          have hprev := key (j - 1) (by omega)
          rw [if_pos (by omega), StateVec.read_write_ne _ _ _ _ hlt (by omega)] at hprev
          rw [hprev, key j hj, if_pos (by omega), StateVec.read_write_same _ _ _ hlt]
          exact Nat.and_pow_two_sub_one_eq_mod _ 32
        · rw [if_neg hji]
          rw [key j hj, if_neg (by omega)]
    · have hiN : i = N := by omega
      have : j < i := by omega
      rw [initializeLoop, if_neg hlt, if_pos this]

/-- After `initialize(seed)`, word `0` is `seed & 0xffffffff` and each later
word is the recurrence of its predecessor. -/
theorem initializeState_read (s : Nat) (g : Gen) (j : Nat) (hj : j < N) :
    (initializeState s g).state.read j =
      if j = 0 then s % 2 ^ 32
      else (1812433253 * ((initializeState s g).state.read (j - 1) ^^^
        ((initializeState s g).state.read (j - 1) >>> 30)) + j) % 2 ^ 32 := by
  have key := initializeLoop_read N 1 (g.state.write 0 (s &&& 0xffffffff))
    (Nat.le_refl 1) (by norm_num [N]) (by omega) j hj
  rw [Nat.sub_self] at key
  unfold initializeState
  dsimp only
  by_cases h0 : j = 0
  · subst h0
    rw [if_pos rfl]
    rw [key, if_pos (by omega), StateVec.read_write_same _ _ _ (by norm_num [N])]
    exact Nat.and_pow_two_sub_one_eq_mod _ 32
  · rw [if_neg h0, key, if_neg (by omega)]

/-- The words written by `initialize(seed)` are those of the specification's
recurrence started at `seed mod 2^32`. -/
theorem initializeState_read_spec (s : Nat) (g : Gen) :
    ∀ j, j < N → (initializeState s g).state.read j = initWordSpec (s % 2 ^ 32) j := by
  intro j
  induction j with
  | zero =>
    intro hj
    rw [initializeState_read s g 0 hj, if_pos rfl]; rfl
  | succ j ih =>
    intro hj
    rw [initializeState_read s g (j + 1) hj, if_neg (by omega)]
    have e : j + 1 - 1 = j := by omega
    rw [e, ih (by omega)]
    rfl

/-- The function `initialize` overwrites the whole array: what it leaves does not depend on
the generator it is applied to. -/
theorem initializeState_state_eq (s : Nat) (g1 g2 : Gen) :
    (initializeState s g1).state = (initializeState s g2).state := by
  apply StateVec.ext_read
  intro i hi
  rw [initializeState_read_spec s g1 i hi, initializeState_read_spec s g2 i hi]

/-- The function `reload` reads nothing but the state array. -/
theorem reload_congr (g1 g2 : Gen) (h : g1.state = g2.state) : reload g1 = reload g2 := by
  unfold reload
  rw [h]

theorem reload_next (g : Gen) : (reload g).next = 0 := rfl

theorem reload_left (g : Gen) : (reload g).left = 624 := rfl

/-! ## `get` -/

/-- Masking a word wrapped at 32 bits with a 32-bit constant is masking the
unwrapped word. -/
theorem mod_and_const (a c : Nat) (hc : c < 2 ^ 32) : (a % 2 ^ 32) &&& c = a &&& c := by
  apply Nat.eq_of_testBit_eq
  intro i
  rw [Nat.testBit_and, Nat.testBit_and, Nat.testBit_mod_two_pow]
  by_cases h : i < 32
  · simp [h]
  · have hci : c < 2 ^ i :=
      lt_of_lt_of_le hc (Nat.pow_le_pow_right (by norm_num) (by omega))
    rw [Nat.testBit_lt_two_pow hci]
    simp

/-- The four tempering lines of `get()` compute the specification's transform. -/
theorem get_fst (g : Gen) :
    (get g).1 = temperSpec ((refreshed g).state.read (refreshed g).next) := by
  unfold get temperSpec refreshed
  dsimp only
  rw [mod_and_const _ 0x9d2c5680 (by norm_num), mod_and_const _ 0xefc60000 (by norm_num)]

theorem get_snd (g : Gen) :
    (get g).2 = ⟨(refreshed g).state, (refreshed g).next + 1, (refreshed g).left - 1⟩ := by
  unfold get refreshed
  rfl

theorem refreshed_of_ne (g : Gen) (h : g.left ≠ 0) : refreshed g = g := by
  unfold refreshed
  rw [if_neg h]

theorem refreshed_of_eq (g : Gen) (h : g.left = 0) : refreshed g = reload g := by
  unfold refreshed
  rw [if_pos h]

/-- From a generator with cursor `c` and `left = 624 - c`, `k` draws that stay
inside the array run no `reload` and only move the cursor. -/
theorem afterDraws_no_reload (st : StateVec) (k : Nat) :
    ∀ c : Nat, c + k ≤ 624 →
      afterDraws k ⟨st, c, 624 - (c : Int)⟩ = ⟨st, c + k, 624 - ((c + k : Nat) : Int)⟩ ∧
      reloadCount k ⟨st, c, 624 - (c : Int)⟩ = 0 := by
  induction k with
  | zero => intro c _; exact ⟨rfl, rfl⟩
  | succ k ih =>
    intro c hc
    have hne : (⟨st, c, 624 - (c : Int)⟩ : Gen).left ≠ 0 := by
      show (624 : Int) - (c : Int) ≠ 0
      omega
    have hstep : (get ⟨st, c, 624 - (c : Int)⟩).2 = ⟨st, c + 1, 624 - ((c + 1 : Nat) : Int)⟩ := by
      rw [get_snd, refreshed_of_ne _ hne]
      dsimp only
      have e : (624 : Int) - (c : Int) - 1 = 624 - ((c + 1 : Nat) : Int) := by omega
      rw [e]
    have hrec := ih (c + 1) (by omega)
    have e : c + 1 + k = c + (k + 1) := by omega
    rw [e] at hrec
    constructor
    · rw [afterDraws, hstep]; exact hrec.1
    · rw [reloadCount, hstep, if_neg hne, hrec.2]

theorem afterDraws_add (a b : Nat) :
    ∀ g : Gen, afterDraws (a + b) g = afterDraws b (afterDraws a g) := by
  induction a with
  | zero => intro g; rw [Nat.zero_add]; rfl
  | succ a ih =>
    intro g
    have e : a + 1 + b = (a + b) + 1 := by omega
    rw [e, afterDraws, afterDraws, ih]

theorem reloadCount_add (a b : Nat) :
    ∀ g : Gen, reloadCount (a + b) g = reloadCount a g + reloadCount b (afterDraws a g) := by
  induction a with
  | zero => intro g; rw [Nat.zero_add, reloadCount, afterDraws, Nat.zero_add]
  | succ a ih =>
    intro g
    have e : a + 1 + b = (a + b) + 1 := by omega
    rw [e, reloadCount, reloadCount, afterDraws, ih, Nat.add_assoc]

/-- From a generator with the cursor at `state[0]` and `left = 624`, each of
the first 624 calls of `get()` returns the tempering of the word of its rank. -/
theorem nthDraw_of_fresh (g : Gen) (hn : g.next = 0) (hl : g.left = 624) (k : Nat)
    (hk : k ≤ 623) : nthDraw k g = temperSpec (g.state.read k) := by
  have hg : g = ⟨g.state, 0, 624 - ((0 : Nat) : Int)⟩ := by
    cases g with
    | mk st n l =>
      dsimp only at hn hl
      subst hn
      subst hl
      rfl
  have hd := (afterDraws_no_reload g.state k 0 (by omega)).1
  rw [← hg, Nat.zero_add] at hd
  have hne : (afterDraws k g).left ≠ 0 := by
    rw [hd]
    dsimp only
    omega
  unfold nthDraw
  rw [get_fst, refreshed_of_ne _ hne, hd]

/-- A generator with the cursor at `state[0]` and `left = 624`, written out. -/
theorem gen_eq_of_fresh (g : Gen) (hn : g.next = 0) (hl : g.left = 624) :
    g = ⟨g.state, 0, 624 - ((0 : Nat) : Int)⟩ := by
  cases g with
  | mk st n l =>
    dsimp only at hn hl
    subst hn
    subst hl
    rfl

/-- The function `seed` does not depend on the generator it is applied to. -/
theorem seed_congr (s : Nat) (g1 g2 : Gen) : seed s g1 = seed s g2 :=
  reload_congr _ _ (initializeState_state_eq s g1 g2)

/-! ## `reload` -/

theorem reloadLoop1_fst (i : Nat) :
    ∀ (p : Nat) (st : StateVec), (reloadLoop1 i p st).1 = p + i := by
  induction i with
  | zero => intro p st; rfl
  | succ i ih =>
    intro p st
    rw [reloadLoop1, ih]
    omega

/-- The first loop of `reload` reads only words it has not yet written: each
word of its range becomes the twist of three words of the state it started
from, and the other words are kept. -/
theorem reloadLoop1_read (i : Nat) :
    ∀ (p : Nat) (st : StateVec), p + i ≤ N → ∀ j,
      (reloadLoop1 i p st).2.read j =
        if p ≤ j ∧ j < p + i then twist (st.read (j + M)) (st.read j) (st.read (j + 1))
        else st.read j := by
  induction i with
  | zero =>
    intro p st _ j
    rw [if_neg (by omega)]
    rfl
  | succ i ih =>
    intro p st hp j
    have hpN : p < N := by omega
    rw [reloadLoop1, ih (p + 1) _ (by omega) j]
    by_cases hj : p + 1 ≤ j ∧ j < p + 1 + i
    · rw [if_pos hj, if_pos (by omega),
        StateVec.read_write_ne _ _ _ _ hpN (by omega),
        StateVec.read_write_ne _ _ _ _ hpN (by omega),
        StateVec.read_write_ne _ _ _ _ hpN (by omega)]
    · rw [if_neg hj]
      by_cases hjp : j = p
      · subst hjp
        rw [if_pos (by omega), StateVec.read_write_same _ _ _ hpN]
      · rw [if_neg (by omega), StateVec.read_write_ne _ _ _ _ hpN hjp]

theorem reloadLoop2_fst (i : Nat) :
    ∀ (p : Nat) (st : StateVec), (reloadLoop2 i p st).1 = p + (i - 1) := by
  induction i with
  | zero => intro p st; rfl
  | succ i ih =>
    intro p st
    rw [reloadLoop2]
    by_cases hi : i ≠ 0
    · rw [if_pos hi, ih]
      omega
    · rw [if_neg hi]
      have : i = 0 := by omega
      subst this
      rfl

/-- The second loop of `reload` keeps every word below the one it starts at. -/
theorem reloadLoop2_read_below (i : Nat) :
    ∀ (p : Nat) (st : StateVec), p + (i - 1) ≤ N → ∀ j, j < p →
      (reloadLoop2 i p st).2.read j = st.read j := by
  induction i with
  | zero => intro p st _ j _; rfl
  | succ i ih =>
    intro p st hp j hj
    rw [reloadLoop2]
    by_cases hi : i ≠ 0
    · rw [if_pos hi, ih (p + 1) _ (by omega) j (by omega)]
      exact StateVec.read_write_ne _ _ _ _ (by omega) (by omega)
    · rw [if_neg hi]

/-- After `reload`, each of the first `N - M` words is the twist of three words
of the state before. -/
theorem reload_read_low (g : Gen) (j : Nat) (hj : j < N - M) :
    (reload g).state.read j =
      twist (g.state.read (j + M)) (g.state.read j) (g.state.read (j + 1)) := by
  have hN : N = 624 := rfl
  have hM : M = 397 := rfl
  have hp1 : (reloadLoop1 (N - M) 0 g.state).1 = N - M := by
    rw [reloadLoop1_fst]; omega
  have hp2 : (reloadLoop2 M (reloadLoop1 (N - M) 0 g.state).1
      (reloadLoop1 (N - M) 0 g.state).2).1 = N - 1 := by
    rw [reloadLoop2_fst, hp1]; omega
  unfold reload
  dsimp only
  rw [hp2, StateVec.read_write_ne _ _ _ _ (by omega) (by omega)]
  rw [hp1, reloadLoop2_read_below M _ _ (by norm_num [N, M]) j hj]
  rw [reloadLoop1_read (N - M) 0 g.state (by norm_num [N, M]) j, if_pos (by omega)]

set_option maxRecDepth 100000 in
/-- The tempered twists of the seeding recurrence started at `1`: the first
two words drawn after `seed(1)`. -/
theorem seed_one_words :
    temperSpec (twist (initWordSpec 1 397) (initWordSpec 1 0) (initWordSpec 1 1)) = 1791095845 ∧
    temperSpec (twist (initWordSpec 1 398) (initWordSpec 1 1) (initWordSpec 1 2)) = 4282876139 := by
  decide!

/-- After `seed(s)`, each of the first `N - M` words is the twist of three
words of the seeding recurrence. -/
theorem seed_read_low (s : Nat) (g : Gen) (j : Nat) (hj : j < N - M) :
    (seed s g).state.read j =
      twist (initWordSpec (s % 2 ^ 32) (j + M)) (initWordSpec (s % 2 ^ 32) j)
        (initWordSpec (s % 2 ^ 32) (j + 1)) := by
  have hN : N = 624 := rfl
  have hM : M = 397 := rfl
  unfold seed
  rw [reload_read_low _ j hj, initializeState_read_spec s g _ (by omega),
    initializeState_read_spec s g _ (by omega), initializeState_read_spec s g _ (by omega)]

/-! ## `nextPowerOfTwo` and the mask of `getRange` -/

/-- The exponent search stops at the least exponent whose power reaches `n`. -/
theorem nextPowerOfTwoExp_spec (fuel : Nat) :
    ∀ (k n : Nat), (∀ j, j < k → 2 ^ j < n) → n ≤ 2 ^ (k + fuel) →
      nextPowerOfTwoExp fuel k n ≤ k + fuel ∧ n ≤ 2 ^ nextPowerOfTwoExp fuel k n ∧
        ∀ j, j < nextPowerOfTwoExp fuel k n → 2 ^ j < n := by
  induction fuel with
  | zero =>
    intro k n hlow hup
    exact ⟨le_refl _, hup, hlow⟩
  | succ fuel ih =>
    intro k n hlow hup
    by_cases hk : n ≤ 2 ^ k
    · rw [nextPowerOfTwoExp, if_pos hk]
      exact ⟨by omega, hk, hlow⟩
    · rw [nextPowerOfTwoExp, if_neg hk]
      have e : k + 1 + fuel = k + (fuel + 1) := by omega
      have hrec := ih (k + 1) n
        (fun j hj => by
          by_cases hjk : j < k
          · exact hlow j hjk
          · have : j = k := by omega
            subst this
            omega)
        (by rw [e]; exact hup)
      rw [e] at hrec
      exact hrec

/-- For `0 < max < UINT32_MAX` the mask of `getRange` is `2^k - 1` for the
exponent `k` with `2^(k-1) <= max < 2^k`. -/
theorem rangeMask_spec (max : Nat) (h0 : 0 < max) (h1 : max < 2 ^ 32 - 1) :
    ∃ k, 1 ≤ k ∧ k ≤ 32 ∧ rangeMask max = 2 ^ k - 1 ∧ max < 2 ^ k ∧ 2 ^ (k - 1) ≤ max := by
  have hmod : (max + 1) % 2 ^ 32 = max + 1 := Nat.mod_eq_of_lt (by omega)
  have hspec := nextPowerOfTwoExp_spec 32 0 (max + 1) (fun j hj => absurd hj (Nat.not_lt_zero j))
    (by rw [Nat.zero_add]; omega)
  obtain ⟨hle, hge, hmin⟩ := hspec
  refine ⟨nextPowerOfTwoExp 32 0 (max + 1), ?_, by omega, ?_, by omega, ?_⟩
  · by_contra hk
    have hz : nextPowerOfTwoExp 32 0 (max + 1) = 0 := by omega
    rw [hz] at hge
    simp at hge
    omega
  · unfold rangeMask nextPowerOfTwo
    rw [hmod]
    generalize nextPowerOfTwoExp 32 0 (max + 1) = k at hle hge hmin
    have hpos : 0 < 2 ^ k := Nat.two_pow_pos k
    by_cases hk : k = 32
    · subst hk
      norm_num
    · have hlt : 2 ^ k < 2 ^ 32 := Nat.pow_lt_pow_right (by norm_num) (by omega)
      rw [Nat.mod_eq_of_lt hlt]
      have e : 2 ^ k + (2 ^ 32 - 1) = (2 ^ k - 1) + 2 ^ 32 := by omega
      rw [e, Nat.add_mod_right]
      exact Nat.mod_eq_of_lt (by omega)
  · have hk1 : nextPowerOfTwoExp 32 0 (max + 1) - 1 < nextPowerOfTwoExp 32 0 (max + 1) := by
      by_contra hc
      have hz : nextPowerOfTwoExp 32 0 (max + 1) = 0 := by omega
      rw [hz] at hge
      simp at hge
      omega
    have := hmin _ hk1
    omega

/-- With the mask `2^k - 1`, exactly `2^32 / 2^k` of the 32-bit words are sent
to each value below `2^k`. -/
theorem drawsTo_pow (k v : Nat) (hk : k ≤ 32) (hv : v < 2 ^ k) :
    drawsTo (2 ^ k - 1) v = 2 ^ 32 / 2 ^ k := by
  unfold drawsTo
  have hpos : 0 < 2 ^ k := Nat.two_pow_pos k
  have hcongr : ∀ w, (w &&& (2 ^ k - 1) = v) ↔ w ≡ v [MOD 2 ^ k] := by
    intro w
    rw [Nat.and_pow_two_sub_one_eq_mod]
    unfold Nat.ModEq
    rw [Nat.mod_eq_of_lt hv]
  rw [Nat.count_eq_card_filter_range, Finset.filter_congr (fun w _ => hcongr w),
    ← Nat.count_eq_card_filter_range, Nat.count_modEq_card _ hpos]
  have hdvd : 2 ^ 32 % 2 ^ k = 0 :=
    Nat.mod_eq_zero_of_dvd (Nat.pow_dvd_pow 2 hk)
  rw [hdvd, if_neg (Nat.not_lt_zero _), Nat.add_zero]

/-! ## Words stay 32-bit -/

/-- A store leaves each word either the stored value or what it was. -/
theorem StateVec.read_write_cases (st : StateVec) (p v j : Nat) :
    (st.write p v).read j = v ∨ (st.write p v).read j = st.read j := by
  by_cases hp : p < N
  · rw [StateVec.read_write st p v j hp]
    by_cases h : j = p
    · left; rw [if_pos h]
    · right; rw [if_neg h]
  · right
    unfold StateVec.read StateVec.write
    dsimp only
    rw [List.set_eq_of_length_le (by rw [st.length_eq]; omega)]

theorem StateVec.write_lt (st : StateVec) (p v : Nat) (h : ∀ i, st.read i < 2 ^ 32)
    (hv : v < 2 ^ 32) : ∀ i, (st.write p v).read i < 2 ^ 32 := by
  intro i
  rcases StateVec.read_write_cases st p v i with e | e
  · rw [e]; exact hv
  · rw [e]; exact h i

theorem shiftRight_lt (a n : Nat) (h : a < 2 ^ 32) : a >>> n < 2 ^ 32 := by
  rw [Nat.shiftRight_eq_div_pow]
  exact lt_of_le_of_lt (Nat.div_le_self _ _) h

theorem twist_lt (m s0 s1 : Nat) (hm : m < 2 ^ 32) : twist m s0 s1 < 2 ^ 32 := by
  unfold twist mixBits hiBit loBits
  apply Nat.xor_lt_two_pow
  · apply Nat.xor_lt_two_pow hm
    apply shiftRight_lt
    exact Nat.or_lt_two_pow (Nat.and_lt_two_pow _ (by norm_num)) (Nat.and_lt_two_pow _ (by norm_num))
  · exact Nat.and_lt_two_pow _ (by norm_num)

theorem temperSpec_lt (y : Nat) (h : y < 2 ^ 32) : temperSpec y < 2 ^ 32 := by
  unfold temperSpec
  dsimp only
  have h1 : y ^^^ (y >>> 11) < 2 ^ 32 := Nat.xor_lt_two_pow h (shiftRight_lt _ _ h)
  have h2 : (y ^^^ (y >>> 11)) ^^^ (((y ^^^ (y >>> 11)) <<< 7) &&& 0x9D2C5680) < 2 ^ 32 :=
    Nat.xor_lt_two_pow h1 (Nat.and_lt_two_pow _ (by norm_num))
  exact Nat.xor_lt_two_pow
    (Nat.xor_lt_two_pow h2 (Nat.and_lt_two_pow _ (by norm_num)))
    (shiftRight_lt _ _ (Nat.xor_lt_two_pow h2 (Nat.and_lt_two_pow _ (by norm_num))))

theorem reloadLoop1_lt (i : Nat) :
    ∀ (p : Nat) (st : StateVec), (∀ j, st.read j < 2 ^ 32) →
      ∀ j, (reloadLoop1 i p st).2.read j < 2 ^ 32 := by
  induction i with
  | zero => intro p st h; exact h
  | succ i ih =>
    intro p st h
    rw [reloadLoop1]
    exact ih _ _ (StateVec.write_lt st p _ h (twist_lt _ _ _ (h _)))

theorem reloadLoop2_lt (i : Nat) :
    ∀ (p : Nat) (st : StateVec), (∀ j, st.read j < 2 ^ 32) →
      ∀ j, (reloadLoop2 i p st).2.read j < 2 ^ 32 := by
  induction i with
  | zero => intro p st h; exact h
  | succ i ih =>
    intro p st h
    rw [reloadLoop2]
    by_cases hi : i ≠ 0
    · rw [if_pos hi]
      exact ih _ _ (StateVec.write_lt st p _ h (twist_lt _ _ _ (h _)))
    · rw [if_neg hi]
      exact h

/-- The function `reload` keeps a state of 32-bit words one of 32-bit words. -/
theorem reload_words32 (g : Gen) (h : Words32 g) : Words32 (reload g) := by
  unfold Words32 reload
  dsimp only
  have h2 := reloadLoop2_lt M (reloadLoop1 (N - M) 0 g.state).1 (reloadLoop1 (N - M) 0 g.state).2
    (reloadLoop1_lt (N - M) 0 g.state h)
  exact StateVec.write_lt _ _ _ h2 (twist_lt _ _ _ (h2 _))

/-- On a state of 32-bit words `get()` returns a 32-bit value. -/
theorem get_lt (g : Gen) (h : Words32 g) : (get g).1 < 2 ^ 32 := by
  rw [get_fst]
  apply temperSpec_lt
  by_cases hz : g.left = 0
  · rw [refreshed_of_eq g hz]; exact reload_words32 g h _
  · rw [refreshed_of_ne g hz]; exact h _

/-- What the rejection loop returns is at most `max`. -/
theorem getRangeLoop_le (fuel : Nat) :
    ∀ (max mask : Nat) (g : Gen) (r : Nat) (g1 : Gen),
      getRangeLoop fuel max mask g = some (r, g1) → r ≤ max := by
  induction fuel with
  | zero =>
    intro max mask g r g1 h
    rw [getRangeLoop] at h
    exact absurd h (by simp)
  | succ fuel ih =>
    intro max mask g r g1 h
    rw [getRangeLoop] at h
    by_cases hgt : (get g).1 &&& mask > max
    · rw [if_pos hgt] at h
      exact ih _ _ _ _ _ h
    · rw [if_neg hgt] at h
      have e := congrArg (fun o => o.map Prod.fst) h
      simp only [Option.map_some'] at e
      have e2 : (get g).1 &&& mask = r := Option.some.inj e
      omega

theorem words32_zeroGen : Words32 zeroGen := by
  intro i
  unfold zeroGen StateVec.read
  dsimp only
  rw [List.getD_eq_getElem?_getD, List.getElem?_replicate]
  by_cases hi : i < N
  · rw [if_pos hi]; norm_num
  · rw [if_neg hi]; norm_num

/-! ## The claims -/

/-- C1. `seed` is history-independent: for every seed value and every two
generators, whatever their state words, cursor and remaining count, `seed(s)`
leaves identical generators, with the cursor at `state[0]` and `left = 624`;
hence every later call of `get()` returns the same value in both. -/
theorem seed_history_independent (s : Nat) (g1 g2 : Gen) :
    seed s g1 = seed s g2 ∧ (seed s g1).next = 0 ∧ (seed s g1).left = 624 ∧
      ∀ n, nthDraw n (seed s g1) = nthDraw n (seed s g2) := by
  have h : seed s g1 = seed s g2 := seed_congr s g1 g2
  refine ⟨h, rfl, rfl, ?_⟩
  intro n
  rw [h]

/-- C2. For every 32-bit seed `s`, `initialize(s)` leaves `state[0] = s` and,
for every `i` from `1` to `623`,
`state[i] = (1812433253 * (state[i-1] XOR (state[i-1] >> 30)) + i) mod 2^32`. -/
theorem initialize_recurrence (s : Nat) (g : Gen) (hs : s < 2 ^ 32) :
    (initializeState s g).state.read 0 = s ∧
      ∀ i, 1 ≤ i → i ≤ 623 →
        (initializeState s g).state.read i =
          (1812433253 * ((initializeState s g).state.read (i - 1) ^^^
            ((initializeState s g).state.read (i - 1) >>> 30)) + i) % 2 ^ 32 := by
  constructor
  · rw [initializeState_read s g 0 (by norm_num [N]), if_pos rfl]
    exact Nat.mod_eq_of_lt hs
  · intro i h1 h2
    rw [initializeState_read s g i (by show i < 624; omega), if_neg (by omega)]

/-- Witness of C2 at seed `1` on the all-zero generator. -/
theorem initialize_recurrence_witness :
    (1 : Nat) < 2 ^ 32 ∧ (initializeState 1 zeroGen).state.read 0 = 1 ∧
      (initializeState 1 zeroGen).state.read 1 =
        (1812433253 * ((initializeState 1 zeroGen).state.read (1 - 1) ^^^
          ((initializeState 1 zeroGen).state.read (1 - 1) >>> 30)) + 1) % 2 ^ 32 :=
  ⟨by norm_num, (initialize_recurrence 1 zeroGen (by norm_num)).1,
    (initialize_recurrence 1 zeroGen (by norm_num)).2 1 (by norm_num) (by norm_num)⟩

/-- C3. One draw: for a generator with cursor + remaining = 624, `get()`
returns the tempering of the word at the cursor of the refreshed generator
(`reload` applied when remaining = 0, the generator itself otherwise), keeps
the state words of the refreshed generator, moves its cursor by one and takes
one from its remaining count; the word read lies inside the array when
remaining is not negative; a draw with remaining > 0 changes no state word,
and a draw with remaining = 0 ends with cursor 1 and remaining 623. -/
theorem get_draw_spec (g : Gen) (h : (g.next : Int) + g.left = 624) :
    (get g).1 = temperSpec ((refreshed g).state.read (refreshed g).next) ∧
    (get g).2.state = (refreshed g).state ∧
    (get g).2.next = (refreshed g).next + 1 ∧
    (get g).2.left = (refreshed g).left - 1 ∧
    (0 ≤ g.left → (refreshed g).next < 624) ∧
    (0 < g.left → (get g).2.state = g.state) ∧
    (g.left = 0 → (get g).2.next = 1 ∧ (get g).2.left = 623) := by
  refine ⟨get_fst g, ?_, ?_, ?_, ?_, ?_, ?_⟩
  · rw [get_snd]
  · rw [get_snd]
  · rw [get_snd]
  · intro h0
    by_cases hz : g.left = 0
    · rw [refreshed_of_eq g hz, reload_next]; norm_num
    · rw [refreshed_of_ne g hz]; omega
  · intro hpos
    rw [get_snd, refreshed_of_ne g (by omega)]
  · intro hz
    rw [get_snd, refreshed_of_eq g hz]
    dsimp only
    rw [reload_next, reload_left]
    exact ⟨rfl, by norm_num⟩

/-- Witness of C3 on the all-zero generator, whose cursor is `0` and whose
remaining count is `624`. -/
theorem get_draw_spec_witness :
    ((zeroGen.next : Int) + zeroGen.left = 624) ∧
      (get zeroGen).1 = temperSpec ((refreshed zeroGen).state.read (refreshed zeroGen).next) ∧
      (get zeroGen).2.next = (refreshed zeroGen).next + 1 :=
  ⟨by decide, (get_draw_spec zeroGen (by decide)).1, (get_draw_spec zeroGen (by decide)).2.2.1⟩

/-- C4. Refresh boundary: after `seed(s)` has left the words `S`, call number
`k + 1` of `get()`, for `k` from `0` to `623`, returns the tempering of `S[k]`,
finds `left` different from `0` (so runs no `reload`), and leaves the words `S`
and `left = 623 - k`; the first 624 calls run `reload` no time, the first 625
calls run it once, and call number 625 returns the tempering of word `0` of
`reload` applied to `S`. -/
theorem refresh_boundary (s : Nat) (g0 : Gen) :
    (∀ k, k ≤ 623 →
      nthDraw k (seed s g0) = temperSpec ((seed s g0).state.read k) ∧
      (afterDraws k (seed s g0)).left ≠ 0 ∧
      (afterDraws (k + 1) (seed s g0)).state = (seed s g0).state ∧
      (afterDraws (k + 1) (seed s g0)).left = 623 - (k : Int)) ∧
    reloadCount 624 (seed s g0) = 0 ∧
    reloadCount 625 (seed s g0) = 1 ∧
    (afterDraws 624 (seed s g0)).left = 0 ∧
    nthDraw 624 (seed s g0) = temperSpec ((reload (seed s g0)).state.read 0) := by
  have hg := gen_eq_of_fresh (seed s g0) rfl rfl
  generalize seed s g0 = g at hg ⊢
  have hk : ∀ k, k ≤ 624 → afterDraws k g = ⟨g.state, k, 624 - (k : Int)⟩ ∧
      reloadCount k g = 0 := by
    intro k hk
    have := afterDraws_no_reload g.state k 0 (by omega)
    rw [← hg, Nat.zero_add] at this
    exact this
  have h624 : (afterDraws 624 g).left = 0 := by
    rw [(hk 624 (le_refl _)).1]
    dsimp only
    norm_num
  refine ⟨?_, (hk 624 (le_refl _)).2, ?_, h624, ?_⟩
  · intro k hk623
    have hne : (afterDraws k g).left ≠ 0 := by
      rw [(hk k (by omega)).1]
      dsimp only
      omega
    refine ⟨?_, hne, ?_, ?_⟩
    · unfold nthDraw
      rw [get_fst, refreshed_of_ne _ hne, (hk k (by omega)).1]
    · rw [(hk (k + 1) (by omega)).1]
    · rw [(hk (k + 1) (by omega)).1]
      dsimp only
      omega
  · have e : (625 : Nat) = 624 + 1 := rfl
    rw [e, reloadCount_add, (hk 624 (le_refl _)).2, reloadCount, if_pos h624, reloadCount]
  · unfold nthDraw
    rw [get_fst, refreshed_of_eq _ h624, reload_next]
    have hst : (afterDraws 624 g).state = g.state := by rw [(hk 624 (le_refl _)).1]
    rw [reload_congr (afterDraws 624 g) g hst]

/-- Witness of C4 at seed `1`: the first call of `get()`. -/
theorem refresh_boundary_witness :
    (0 : Nat) ≤ 623 ∧
      nthDraw 0 (seed 1 zeroGen) = temperSpec ((seed 1 zeroGen).state.read 0) :=
  ⟨by norm_num, ((refresh_boundary 1 zeroGen).1 0 (by norm_num)).1⟩

/-- C5. Reference output: whatever the generator was before, the first value
returned by `get()` after `seed(1)` is `1791095845` and the second is
`4282876139`, the first two outputs of MT19937 after `init_genrand(1)`. -/
theorem seed_one_reference (g0 : Gen) :
    nthDraw 0 (seed 1 g0) = 1791095845 ∧ nthDraw 1 (seed 1 g0) = 4282876139 := by
  have h0 := seed_read_low 1 g0 0 (by norm_num [N, M])
  have h1 := seed_read_low 1 g0 1 (by norm_num [N, M])
  have hmod : 1 % 2 ^ 32 = 1 := by norm_num
  rw [hmod] at h0 h1
  rw [nthDraw_of_fresh (seed 1 g0) rfl rfl 0 (by norm_num),
    nthDraw_of_fresh (seed 1 g0) rfl rfl 1 (by norm_num), h0, h1]
  exact seed_one_words

/-- C6. Range correctness: for every `max` and every generator of 32-bit
words, whatever its cursor, every value returned by `getRange(max)` is at most
`max` (and, a natural number, at least `0`); `max = 0`, `max = 2^31` and
`max = UINT32_MAX` are among them. -/
theorem getRange_le (fuel max : Nat) (g : Gen) (r : Nat) (g1 : Gen) (hw : Words32 g)
    (h : getRange fuel max g = some (r, g1)) : 0 ≤ r ∧ r ≤ max := by
  refine ⟨Nat.zero_le r, ?_⟩
  unfold getRange at h
  by_cases h0 : max = 0
  · rw [if_pos h0] at h
    have e : (0 : Nat) = r := congrArg Prod.fst (Option.some.inj h)
    omega
  · rw [if_neg h0] at h
    by_cases hm : max = NV_UINT32_MAX
    · rw [if_pos hm] at h
      have e : (get g).1 = r := congrArg Prod.fst (Option.some.inj h)
      have hlt := get_lt g hw
      have hmax : max = 4294967295 := hm
      omega
    · rw [if_neg hm] at h
      exact getRangeLoop_le fuel _ _ _ _ _ h

/-- Witness of C6 at `max = 2^31` on the all-zero generator: the first draw is
`0` and is accepted. -/
theorem getRange_le_witness :
    (Words32 zeroGen ∧ getRange 1 2147483648 zeroGen = some (0, (get zeroGen).2)) ∧
      0 ≤ 0 ∧ 0 ≤ 2147483648 :=
  ⟨⟨words32_zeroGen, rfl⟩, getRange_le 1 2147483648 zeroGen 0 (get zeroGen).2 words32_zeroGen rfl⟩

/-- C7. For every generator, `getRange(0)` returns `0` at once: no draw is
made, and the state words, the cursor and the remaining count are unchanged. -/
theorem getRange_zero (fuel : Nat) (g : Gen) : getRange fuel 0 g = some (0, g) := by
  unfold getRange
  rw [if_pos rfl]

/-- C8. For every generator, `getRange(UINT32_MAX)` is one call of `get()`: the
same value and the same generator afterwards, with no mask and no
`nextPowerOfTwo`. -/
theorem getRange_uint32_max (fuel : Nat) (g : Gen) :
    getRange fuel NV_UINT32_MAX g = some (get g) := by
  unfold getRange
  rw [if_neg (by norm_num), if_pos rfl]

/-- C9. No modulo bias: for `0 < max < UINT32_MAX` and the mask
`nextPowerOfTwo(max + 1) - 1`, every two target values `v1, v2 <= max` are
produced by the accept step from the same number of raw 32-bit draws, that
number is `2^32 / (mask + 1)`, and it is positive. -/
theorem no_modulo_bias (max v1 v2 : Nat) (h0 : 0 < max) (h1 : max < 2 ^ 32 - 1)
    (hv1 : v1 ≤ max) (hv2 : v2 ≤ max) :
    drawsTo (rangeMask max) v1 = drawsTo (rangeMask max) v2 ∧
      drawsTo (rangeMask max) v1 = 2 ^ 32 / (rangeMask max + 1) ∧
      0 < drawsTo (rangeMask max) v1 := by
  obtain ⟨k, _, hk32, hmask, hlt, _⟩ := rangeMask_spec max h0 h1
  have hpos : 0 < 2 ^ k := Nat.two_pow_pos k
  have e : 2 ^ k - 1 + 1 = 2 ^ k := by omega
  rw [hmask, drawsTo_pow k v1 hk32 (by omega), drawsTo_pow k v2 hk32 (by omega), e]
  refine ⟨rfl, rfl, ?_⟩
  exact Nat.div_pos (Nat.pow_le_pow_right (by norm_num) hk32) hpos

/-- Witness of C9 at `max = 5` with the targets `0` and `5`. -/
theorem no_modulo_bias_witness :
    (0 < 5 ∧ 5 < 2 ^ 32 - 1 ∧ 0 ≤ 5 ∧ 5 ≤ 5) ∧
      drawsTo (rangeMask 5) 0 = drawsTo (rangeMask 5) 5 ∧
      drawsTo (rangeMask 5) 0 = 2 ^ 32 / (rangeMask 5 + 1) ∧
      0 < drawsTo (rangeMask 5) 0 :=
  ⟨by norm_num, no_modulo_bias 5 0 5 (by norm_num) (by norm_num) (by norm_num) (by norm_num)⟩

/-- C10. Rejection rate below 50%: for `0 < max < UINT32_MAX` the mask
`nextPowerOfTwo(max + 1) - 1` is at least `max`, and the rejected masked
values `max + 1 .. mask` are fewer than half of the `mask + 1` masked values. -/
theorem rejection_below_half (max : Nat) (h0 : 0 < max) (h1 : max < 2 ^ 32 - 1) :
    max ≤ rangeMask max ∧ 2 * (rangeMask max - max) < rangeMask max + 1 := by
  obtain ⟨k, hk1, _, hmask, hlt, hge⟩ := rangeMask_spec max h0 h1
  have hpow : 2 ^ k = 2 * 2 ^ (k - 1) := by
    have e : k = (k - 1) + 1 := by omega
    conv_lhs => rw [e, Nat.pow_succ]
    omega
  rw [hmask]
  omega

/-- Witness of C10 at `max = 5`, whose mask is `7`. -/
theorem rejection_below_half_witness :
    (0 < 5 ∧ 5 < 2 ^ 32 - 1) ∧ 5 ≤ rangeMask 5 ∧ 2 * (rangeMask 5 - 5) < rangeMask 5 + 1 :=
  ⟨by norm_num, rejection_below_half 5 (by norm_num) (by norm_num)⟩

/-! ## The rejection loop -/

/-- What the rejection loop returns: the masked draw of the first accepted
rank, every earlier masked draw being above `max`, and the generator after the
draws made. -/
theorem getRangeLoop_spec (fuel : Nat) :
    ∀ (max mask : Nat) (g : Gen) (r : Nat) (g1 : Gen),
      getRangeLoop fuel max mask g = some (r, g1) →
        ∃ j, j < fuel ∧ r = nthDraw j g &&& mask ∧ r ≤ max ∧ g1 = afterDraws (j + 1) g ∧
          ∀ i, i < j → max < nthDraw i g &&& mask := by
  induction fuel with
  | zero =>
    intro max mask g r g1 h
    rw [getRangeLoop] at h
    exact absurd h (by simp)
  | succ fuel ih =>
    intro max mask g r g1 h
    rw [getRangeLoop] at h
    by_cases hgt : (get g).1 &&& mask > max
    · rw [if_pos hgt] at h
      obtain ⟨j, hj, hr, hle, hg1, hbad⟩ := ih _ _ _ _ _ h
      refine ⟨j + 1, by omega, hr, hle, hg1, ?_⟩
      intro i hi
      cases i with
      | zero => exact hgt
      | succ i => exact hbad i (by omega)
    · rw [if_neg hgt] at h
      have e := Option.some.inj h
      have e1 : (get g).1 &&& mask = r := congrArg Prod.fst e
      have e2 : (get g).2 = g1 := congrArg Prod.snd e
      refine ⟨0, by omega, e1.symm, by omega, e2.symm, ?_⟩
      intro i hi
      omega

/-- The rejection loop returns as soon as its bound reaches an accepted draw. -/
theorem getRangeLoop_returns (max mask : Nat) (j : Nat) :
    ∀ (g : Gen), nthDraw j g &&& mask ≤ max → ∀ fuel, j < fuel →
      ∃ r g1, getRangeLoop fuel max mask g = some (r, g1) := by
  induction j with
  | zero =>
    intro g hacc fuel hf
    obtain ⟨f, rfl⟩ : ∃ f, fuel = f + 1 := ⟨fuel - 1, by omega⟩
    rw [getRangeLoop]
    have h0 : ¬ (get g).1 &&& mask > max := by
      have : nthDraw 0 g = (get g).1 := rfl
      rw [this] at hacc
      omega
    rw [if_neg h0]
    exact ⟨_, _, rfl⟩
  | succ j ih =>
    intro g hacc fuel hf
    obtain ⟨f, rfl⟩ : ∃ f, fuel = f + 1 := ⟨fuel - 1, by omega⟩
    rw [getRangeLoop]
    by_cases hgt : (get g).1 &&& mask > max
    · rw [if_pos hgt]
      exact ih (get g).2 hacc f (by omega)
    · rw [if_neg hgt]
      exact ⟨_, _, rfl⟩

/-! ## The cursor -/

/-- A call of `get()` keeps `0 <= left <= 624` and `next = 624 - left`. -/
theorem get_cursor (g : Gen) (h0 : 0 ≤ g.left) (h1 : g.left ≤ 624)
    (h2 : (g.next : Int) = 624 - g.left) :
    0 ≤ (get g).2.left ∧ (get g).2.left ≤ 624 ∧
      ((get g).2.next : Int) = 624 - (get g).2.left := by
  rw [get_snd]
  dsimp only
  by_cases hz : g.left = 0
  · rw [refreshed_of_eq g hz, reload_next, reload_left]
    refine ⟨by norm_num, by norm_num, by norm_num⟩
  · rw [refreshed_of_ne g hz]
    refine ⟨by omega, by omega, ?_⟩
    push_cast
    omega

theorem getRangeLoop_cursor (fuel : Nat) :
    ∀ (max mask : Nat) (g : Gen) (r : Nat) (g1 : Gen),
      getRangeLoop fuel max mask g = some (r, g1) →
      0 ≤ g.left → g.left ≤ 624 → (g.next : Int) = 624 - g.left →
        0 ≤ g1.left ∧ g1.left ≤ 624 ∧ (g1.next : Int) = 624 - g1.left := by
  induction fuel with
  | zero =>
    intro max mask g r g1 h
    rw [getRangeLoop] at h
    exact absurd h (by simp)
  | succ fuel ih =>
    intro max mask g r g1 h h0 h1 h2
    rw [getRangeLoop] at h
    have hget := get_cursor g h0 h1 h2
    by_cases hgt : (get g).1 &&& mask > max
    · rw [if_pos hgt] at h
      exact ih _ _ _ _ _ h hget.1 hget.2.1 hget.2.2
    · rw [if_neg hgt] at h
      have e2 : (get g).2 = g1 := congrArg Prod.snd (Option.some.inj h)
      rw [← e2]
      exact hget

/-- Every generator a program can hold has `0 <= left <= 624` and
`next = 624 - left`. -/
theorem reachable_cursor (g : Gen) (h : Reachable g) :
    0 ≤ g.left ∧ g.left ≤ 624 ∧ (g.next : Int) = 624 - g.left := by
  induction h with
  | ctor s g0 =>
    have hn : (seed s g0).next = 0 := rfl
    have hl : (seed s g0).left = 624 := rfl
    rw [hn, hl]
    refine ⟨by norm_num, by norm_num, by norm_num⟩
  | seed s g _ _ =>
    have hn : (seed s g).next = 0 := rfl
    have hl : (seed s g).left = 624 := rfl
    rw [hn, hl]
    refine ⟨by norm_num, by norm_num, by norm_num⟩
  | get g _ ih => exact get_cursor g ih.1 ih.2.1 ih.2.2
  | getRange fuel max g r g1 _ hret ih =>
    unfold MTRand.getRange at hret
    by_cases hm0 : max = 0
    · rw [if_pos hm0] at hret
      have e2 : g = g1 := congrArg Prod.snd (Option.some.inj hret)
      rw [← e2]
      exact ih
    · rw [if_neg hm0] at hret
      by_cases hmm : max = NV_UINT32_MAX
      · rw [if_pos hmm] at hret
        have e2 : (MTRand.get g).2 = g1 := congrArg Prod.snd (Option.some.inj hret)
        rw [← e2]
        exact get_cursor g ih.1 ih.2.1 ih.2.2
      · rw [if_neg hmm] at hret
        exact getRangeLoop_cursor fuel _ _ g r g1 hret ih.1 ih.2.1 ih.2.2

/-! ## The twist -/

/-- The low bit of the mixed value is the low bit of its second word. -/
theorem mixBits_and_one (s0 s1 : Nat) : mixBits s0 s1 &&& 1 = s1 % 2 := by
  unfold mixBits hiBit loBits
  apply Nat.eq_of_testBit_eq
  intro i
  rw [Nat.testBit_and, Nat.testBit_or, Nat.testBit_and, Nat.testBit_and,
    ← Nat.and_one_is_mod, Nat.testBit_and]
  cases i with
  | zero => simp
  | succ i =>
    have h1 : Nat.testBit 1 (i + 1) = false := by
      rw [Nat.testBit_succ]
      simp
    rw [h1]
    simp

/-- The branch-free term of `twist` is the constant when the low bit of `s1`
is set, and `0` otherwise. -/
theorem twist_mask_term (s1 : Nat) :
    ((not32 (loBit s1) + 1) % 2 ^ 32) &&& 0x9908b0df =
      if s1 % 2 = 1 then 0x9908b0df else 0 := by
  unfold not32 loBit
  rw [Nat.and_one_is_mod]
  rcases Nat.mod_two_eq_zero_or_one s1 with h | h
  · rw [h]; norm_num
  · rw [h]; norm_num; rfl

/-- The first value returned by `get()` after `seed(1)`. -/
theorem seed_one_first (g0 : Gen) : nthDraw 0 (seed 1 g0) = 1791095845 := by
  have h0 := seed_read_low 1 g0 0 (by norm_num [N, M])
  have hmod : 1 % 2 ^ 32 = 1 := by norm_num
  rw [hmod] at h0
  rw [nthDraw_of_fresh (seed 1 g0) rfl rfl 0 (by norm_num), h0]
  exact seed_one_words.1

/-- The power of two that `nextPowerOfTwo(max + 1)` stands for, for
`0 < max < UINT32_MAX`: it is the smallest one strictly greater than `max`;
below `2^31` it is a 32-bit value and is returned as it is, from `2^31` on it
is `2^32`, returned as `0`, and the mask wraps to `2^32 - 1`. -/
theorem nextPowerOfTwo_cases (max : Nat) (h0 : 0 < max) (h1 : max < 2 ^ 32 - 1) :
    max + 1 < 2 ^ 32 ∧
    max < nextPowerOfTwoNat (max + 1) ∧
    (∀ k, max < 2 ^ k → nextPowerOfTwoNat (max + 1) ≤ 2 ^ k) ∧
    (max < 2 ^ 31 →
      nextPowerOfTwoNat (max + 1) < 2 ^ 32 ∧
      nextPowerOfTwo (max + 1) = nextPowerOfTwoNat (max + 1) ∧
      max + 1 ≤ nextPowerOfTwo (max + 1)) ∧
    (2 ^ 31 ≤ max →
      nextPowerOfTwoNat (max + 1) = 2 ^ 32 ∧ nextPowerOfTwo (max + 1) = 0 ∧
      rangeMask max = 2 ^ 32 - 1) := by
  obtain ⟨hle, hge, hmin⟩ := nextPowerOfTwoExp_spec 32 0 (max + 1)
    (fun j hj => absurd hj (Nat.not_lt_zero j)) (by rw [Nat.zero_add]; omega)
  have hmod : (max + 1) % 2 ^ 32 = max + 1 := Nat.mod_eq_of_lt (by omega)
  unfold rangeMask nextPowerOfTwo nextPowerOfTwoNat
  rw [hmod]
  generalize nextPowerOfTwoExp 32 0 (max + 1) = e at hle hge hmin
  refine ⟨by omega, by omega, ?_, ?_, ?_⟩
  · intro k hk
    by_cases hke : k < e
    · have := hmin k hke
      omega
    · exact Nat.pow_le_pow_right (by norm_num) (by omega)
  · intro hlt
    have he : e ≤ 31 := by
      by_contra hc
      have := hmin 31 (by omega)
      omega
    have hpow : 2 ^ e ≤ 2 ^ 31 := Nat.pow_le_pow_right (by norm_num) he
    have hlt32 : 2 ^ e < 2 ^ 32 := by omega
    rw [Nat.mod_eq_of_lt hlt32]
    exact ⟨hlt32, rfl, hge⟩
  · intro hbig
    have he : e = 32 := by
      by_contra hc
      have hpow : 2 ^ e ≤ 2 ^ 31 := Nat.pow_le_pow_right (by norm_num) (by omega)
      omega
    subst he
    norm_num

/-! ## `reload` as a circular loop -/

theorem circularLoop_add (a : Nat) :
    ∀ (b i : Nat) (st : StateVec),
      circularLoop (a + b) i st = circularLoop b (i + a) (circularLoop a i st) := by
  induction a with
  | zero => intro b i st; rw [Nat.zero_add]; rfl
  | succ a ih =>
    intro b i st
    have e : a + 1 + b = (a + b) + 1 := by omega
    have e2 : i + (a + 1) = i + 1 + a := by omega
    rw [e, circularLoop, ih, circularLoop, e2]

/-- The first loop of `reload` is the circular loop over its range. -/
theorem reloadLoop1_eq_circular (k : Nat) :
    ∀ (p : Nat) (st : StateVec), p + k ≤ N - M →
      reloadLoop1 k p st = (p + k, circularLoop k p st) := by
  induction k with
  | zero => intro p st _; rfl
  | succ k ih =>
    intro p st hp
    have hN : N = 624 := rfl
    have hM : M = 397 := rfl
    have e1 : (p + M) % N = p + M := Nat.mod_eq_of_lt (by omega)
    have e2 : (p + 1) % N = p + 1 := Nat.mod_eq_of_lt (by omega)
    have e3 : p + 1 + k = p + (k + 1) := by omega
    rw [reloadLoop1, ih (p + 1) _ (by omega), circularLoop, circularStep, e1, e2, e3]

/-- The second loop of `reload` is the circular loop over its range. -/
theorem reloadLoop2_eq_circular (k : Nat) :
    ∀ (p : Nat) (st : StateVec), N - M ≤ p → p + k ≤ N - 1 →
      reloadLoop2 (k + 1) p st = (p + k, circularLoop k p st) := by
  induction k with
  | zero =>
    intro p st _ _
    rw [reloadLoop2, if_neg (by omega)]
    rfl
  | succ k ih =>
    intro p st hlo hp
    have hN : N = 624 := rfl
    have hM : M = 397 := rfl
    have e1 : (p + M) % N = p + M - N := by
      rw [Nat.mod_eq_sub_mod (by omega)]
      exact Nat.mod_eq_of_lt (by omega)
    have e2 : (p + 1) % N = p + 1 := Nat.mod_eq_of_lt (by omega)
    have e3 : p + 1 + k = p + (k + 1) := by omega
    rw [reloadLoop2, if_pos (by omega), ih (p + 1) _ (by omega) (by omega), circularLoop,
      circularStep, e1, e2, e3]

/-- The three ranges of `reload` together are the circular loop over all `N`
indices. -/
theorem reload_state_eq_circular (st : StateVec) :
    (reload ⟨st, 0, 0⟩).state = circularLoop N 0 st := by
  have hN : N = 624 := rfl
  have hM : M = 397 := rfl
  have hsplit : circularLoop ((N - M) + ((M - 1) + 1)) 0 st =
      circularLoop 1 (N - 1) (circularLoop (M - 1) (N - M) (circularLoop (N - M) 0 st)) := by
    rw [circularLoop_add, circularLoop_add, Nat.zero_add]
    have e : N - M + (M - 1) = N - 1 := by omega
    rw [e]
  have hcount : (N - M) + ((M - 1) + 1) = N := by omega
  rw [hcount] at hsplit
  rw [hsplit]
  have h1 := reloadLoop1_eq_circular (N - M) 0 st (by omega)
  rw [Nat.zero_add] at h1
  have h2 := reloadLoop2_eq_circular (M - 1) (N - M) (circularLoop (N - M) 0 st)
    (le_refl _) (by omega)
  have eM : M - 1 + 1 = M := by omega
  have eP : N - M + (M - 1) = N - 1 := by omega
  rw [eM, eP] at h2
  unfold reload
  dsimp only
  rw [h1]
  dsimp only
  rw [h2]
  dsimp only
  have e1 : (N - 1 + M) % N = N - 1 + M - N := by
    rw [Nat.mod_eq_sub_mod (by omega)]
    exact Nat.mod_eq_of_lt (by omega)
  have e2 : (N - 1 + 1) % N = 0 := by
    have : N - 1 + 1 = N := by omega
    rw [this, Nat.mod_self]
  rw [circularLoop, circularLoop, circularStep, e1, e2]

/-! ## The accesses of `reload` -/

theorem runTrace_append (t1 : List Access) :
    ∀ (t2 : List Access) (st : StateVec),
      runTrace (t1 ++ t2) st = runTrace t2 (runTrace t1 st) := by
  induction t1 with
  | nil => intro t2 st; rfl
  | cons a t1 ih =>
    intro t2 st
    rw [List.cons_append, runTrace, runTrace, ih]

/-- The first loop of `reload` makes the accesses listed for it. -/
theorem reloadLoop1_eq_trace (i : Nat) :
    ∀ (p : Nat) (q : Int) (st : StateVec), q = (p : Int) →
      reloadLoop1 i p st = (p + i, runTrace (reloadTrace1 i q) st) ∧
        (reloadTrace1 i q).length = i := by
  induction i with
  | zero => intro p q st _; exact ⟨rfl, rfl⟩
  | succ i ih =>
    intro p q st hq
    subst hq
    have e0 : ((p : Int)).toNat = p := Int.toNat_natCast p
    have e1 : ((p : Int) + (M : Int)).toNat = p + M := by omega
    have e2 : ((p : Int) + 0).toNat = p := by omega
    have e3 : ((p : Int) + 1).toNat = p + 1 := by omega
    have e4 : p + 1 + i = p + (i + 1) := by omega
    have ih1 := ih (p + 1) ((p : Int) + 1)
      (st.write p (twist (st.read (p + M)) (st.read p) (st.read (p + 1)))) (by push_cast; rfl)
    rw [reloadLoop1, reloadTrace1, runTrace]
    dsimp only
    rw [e0, e1, e2, e3, ih1.1, e4, List.length_cons, ih1.2]
    exact ⟨rfl, rfl⟩

/-- The second loop of `reload` makes the accesses listed for it. -/
theorem reloadLoop2_eq_trace (i : Nat) :
    ∀ (p : Nat) (q : Int) (st : StateVec), q = (p : Int) →
      reloadLoop2 i p st = (p + (i - 1), runTrace (reloadTrace2 i q) st) ∧
        (reloadTrace2 i q).length = i - 1 := by
  induction i with
  | zero => intro p q st _; exact ⟨rfl, rfl⟩
  | succ i ih =>
    intro p q st hq
    subst hq
    by_cases hi : i ≠ 0
    · have e0 : ((p : Int)).toNat = p := Int.toNat_natCast p
      have e1 : ((p : Int) + ((M : Int) - (N : Int))).toNat = p + M - N := by omega
      have e2 : ((p : Int) + 0).toNat = p := by omega
      have e3 : ((p : Int) + 1).toNat = p + 1 := by omega
      have e4 : p + 1 + (i - 1) = p + (i + 1 - 1) := by omega
      have e5 : i - 1 + 1 = i + 1 - 1 := by omega
      have ih1 := ih (p + 1) ((p : Int) + 1)
        (st.write p (twist (st.read (p + M - N)) (st.read p) (st.read (p + 1))))
        (by push_cast; rfl)
      rw [reloadLoop2, reloadTrace2, if_pos hi, if_pos hi, runTrace]
      dsimp only
      rw [e0, e1, e2, e3, ih1.1, e4, List.length_cons, ih1.2, e5]
      exact ⟨rfl, rfl⟩
    · have hz : i = 0 := by omega
      subst hz
      rw [reloadLoop2, reloadTrace2, if_neg hi, if_neg hi]
      exact ⟨rfl, rfl⟩

/-- The state that `reload` leaves is the one obtained by carrying out its
list of accesses. -/
theorem reload_state_eq_trace (g : Gen) :
    (reload g).state = runTrace reloadTrace g.state := by
  have hN : N = 624 := rfl
  have hM : M = 397 := rfl
  have h1 := reloadLoop1_eq_trace (N - M) 0 0 g.state rfl
  rw [Nat.zero_add] at h1
  have h2 := reloadLoop2_eq_trace M (N - M) ((N - M : Nat) : Int)
    (runTrace (reloadTrace1 (N - M) 0) g.state) rfl
  unfold reload reloadTrace
  dsimp only
  rw [h1.1]
  dsimp only
  rw [h2.1]
  dsimp only
  rw [runTrace_append, runTrace_append, h1.2, h2.2, runTrace, runTrace]
  dsimp only
  have e0 : (((N - M : Nat) : Int) + ((M - 1 : Nat) : Int)).toNat = N - M + (M - 1) := by
    omega
  have e1 : (((N - M : Nat) : Int) + ((M - 1 : Nat) : Int) + ((M : Int) - (N : Int))).toNat
      = N - M + (M - 1) + M - N := by omega
  have e2 : (((N - M : Nat) : Int) + ((M - 1 : Nat) : Int) + 0).toNat
      = N - M + (M - 1) := by omega
  have e3 : (0 : Int).toNat = 0 := rfl
  rw [e0, e1, e2, e3]

theorem Gen.ext_fields (a b : Gen) (h1 : a.state = b.state) (h2 : a.next = b.next)
    (h3 : a.left = b.left) : a = b := by
  cases a
  cases b
  dsimp only at h1 h2 h3
  subst h1
  subst h2
  subst h3
  rfl

set_option maxRecDepth 100000 in
/-- The list of accesses of `reload`, evaluated: the lengths of its three
parts, the offsets written, and the bounds and the form of the offsets read. -/
theorem reloadTrace_facts :
    (reloadTrace1 (N - M) 0).length = 227 ∧ (reloadTrace2 M 227).length = 396 ∧
    reloadTrace.length = 624 ∧
    reloadTrace.map Access.written = (List.range 624).map Int.ofNat ∧
    (∀ a ∈ reloadTrace, (0 ≤ a.read0 ∧ a.read0 ≤ 623) ∧ (0 ≤ a.read1 ∧ a.read1 ≤ 623) ∧
      (0 ≤ a.read2 ∧ a.read2 ≤ 623)) ∧
    (∀ a ∈ reloadTrace, a.written < 227 →
      a.read0 = a.written + 397 ∧ a.read1 = a.written ∧ a.read2 = a.written + 1) ∧
    (∀ a ∈ reloadTrace, 227 ≤ a.written → a.written < 623 →
      a.read0 = a.written - 227 ∧ a.read1 = a.written ∧ a.read2 = a.written + 1) ∧
    (∀ a ∈ reloadTrace, a.written = 623 →
      a.read0 = 396 ∧ a.read1 = 623 ∧ a.read2 = 0) := by
  decide!

set_option maxRecDepth 100000 in
/-- The access that the last step of `reload` makes. -/
theorem reloadTrace_last_mem : (⟨623, 396, 623, 0⟩ : Access) ∈ reloadTrace := by
  decide!

/-! ## The tempering transform is one-to-one -/

/-- A word that is its own right shift by a positive amount is `0`. -/
theorem eq_zero_of_eq_shiftRight (d k : Nat) (hk : 0 < k) (h : d = d >>> k) : d = 0 := by
  by_contra hd
  have hpos : 0 < d := Nat.pos_of_ne_zero hd
  have hlt : d / 2 ^ k < d :=
    Nat.div_lt_self hpos (Nat.one_lt_two_pow (by omega))
  rw [Nat.shiftRight_eq_div_pow] at h
  omega

/-- The step `y ^= y >> k` of the tempering loses nothing. -/
theorem xor_shiftRight_inj (k : Nat) (hk : 0 < k) (a b : Nat)
    (h : a ^^^ (a >>> k) = b ^^^ (b >>> k)) : a = b := by
  have hbits : ∀ i, (a ^^^ b).testBit i = ((a ^^^ b) >>> k).testBit i := by
    intro i
    have hi := congrArg (fun x => Nat.testBit x i) h
    simp only [Nat.testBit_xor, Nat.testBit_shiftRight] at hi ⊢
    revert hi
    cases a.testBit i <;> cases a.testBit (k + i) <;> cases b.testBit i <;>
      cases b.testBit (k + i) <;> simp
  have hd : a ^^^ b = 0 :=
    eq_zero_of_eq_shiftRight _ k hk (Nat.eq_of_testBit_eq hbits)
  exact Nat.xor_eq_zero.mp hd

/-- The step `y ^= (y << k) & c` of the tempering loses nothing. -/
theorem xor_shiftLeft_and_inj (k c : Nat) (hk : 0 < k) (a b : Nat)
    (h : a ^^^ ((a <<< k) &&& c) = b ^^^ ((b <<< k) &&& c)) : a = b := by
  apply Nat.eq_of_testBit_eq
  intro i
  induction i using Nat.strong_induction_on with
  | _ i ih =>
    have hi := congrArg (fun x => Nat.testBit x i) h
    simp only [Nat.testBit_xor, Nat.testBit_and, Nat.testBit_shiftLeft] at hi
    by_cases hik : i ≥ k
    · have hprev := ih (i - k) (by omega)
      rw [hprev] at hi
      revert hi
      cases a.testBit i <;> cases b.testBit i <;> cases b.testBit (i - k) <;>
        cases c.testBit i <;> simp [hik]
    · revert hi
      cases a.testBit i <;> cases b.testBit i <;> simp [hik]

/-- The tempering transform never sends two words to the same value. -/
theorem temperSpec_injective (a b : Nat) (h : temperSpec a = temperSpec b) : a = b := by
  unfold temperSpec at h
  dsimp only at h
  have h3 := xor_shiftRight_inj 18 (by norm_num) _ _ h
  have h2 := xor_shiftLeft_and_inj 15 _ (by norm_num) _ _ h3
  have h1 := xor_shiftLeft_and_inj 7 _ (by norm_num) _ _ h2
  exact xor_shiftRight_inj 11 (by norm_num) _ _ h1

/-- Every 32-bit value is the tempering of a 32-bit word. -/
theorem temperSpec_surjective (v : Nat) (hv : v < 2 ^ 32) :
    ∃ w, w < 2 ^ 32 ∧ temperSpec w = v := by
  have hinj : Function.Injective
      (fun w : Fin (2 ^ 32) => (⟨temperSpec w.1, temperSpec_lt w.1 w.2⟩ : Fin (2 ^ 32))) := by
    intro x y hxy
    have e : temperSpec x.1 = temperSpec y.1 := congrArg Fin.val hxy
    exact Fin.ext (temperSpec_injective _ _ e)
  obtain ⟨w, hw⟩ := (Finite.injective_iff_surjective.mp hinj) ⟨v, hv⟩
  exact ⟨w.1, w.2, congrArg Fin.val hw⟩

theorem constGen_read (w i : Nat) (hi : i < N) : (constGen w).state.read i = w := by
  unfold constGen StateVec.read
  dsimp only
  rw [List.getD_eq_getElem?_getD, List.getElem?_replicate, if_pos hi]
  rfl

/-- The first call of `get()` on a generator whose words are all `w` returns
the tempering of `w`. -/
theorem get_constGen (w : Nat) : (get (constGen w)).1 = temperSpec w := by
  have hne : (constGen w).left ≠ 0 := by
    show ((N : Nat) : Int) ≠ 0
    norm_num [N]
  have hn : (constGen w).next = 0 := rfl
  rw [get_fst, refreshed_of_ne _ hne, hn, constGen_read w 0 (by norm_num [N])]

/-! ## The refresh never reaches the all-zero state -/

theorem StateVec.read_of_ge (st : StateVec) (i : Nat) (hi : N ≤ i) : st.read i = 0 := by
  unfold StateVec.read
  rw [List.getD_eq_getElem?_getD, List.getElem?_eq_none (by rw [st.length_eq]; exact hi)]
  rfl

theorem initWordSpec_lt (s : Nat) (hs : s < 2 ^ 32) (j : Nat) : initWordSpec s j < 2 ^ 32 := by
  cases j with
  | zero => exact hs
  | succ j =>
    rw [initWordSpec]
    exact Nat.mod_lt _ (by norm_num)

/-- After `initialize` every word is a 32-bit word. -/
theorem words32_initializeState (s : Nat) (g : Gen) : Words32 (initializeState s g) := by
  intro i
  by_cases hi : i < N
  · rw [initializeState_read_spec s g i hi]
    exact initWordSpec_lt _ (Nat.mod_lt _ (by norm_num)) i
  · rw [StateVec.read_of_ge _ i (by omega)]
    norm_num

theorem words32_seed (s : Nat) (g : Gen) : Words32 (seed s g) :=
  reload_words32 _ (words32_initializeState s g)

/-- After `initialize` word `1` or word `2` is not `0`: a word that follows a
zero word is its own index. -/
theorem nondegenerate_initializeState (s : Nat) (g : Gen) :
    Nondegenerate (initializeState s g).state := by
  right
  by_cases h1 : (initializeState s g).state.read 1 = 0
  · refine ⟨2, by norm_num, by norm_num [N], ?_⟩
    rw [initializeState_read s g 2 (by norm_num [N]), if_neg (by norm_num)]
    have e : 2 - 1 = 1 := rfl
    rw [e, h1]
    norm_num
  · exact ⟨1, by norm_num, by norm_num [N], h1⟩

theorem twist_eq_xor_twistMatrix (m s0 s1 : Nat) :
    twist m s0 s1 = m ^^^ twistMatrix (mixBits s0 s1) := by
  unfold twist twistMatrix
  rw [twist_mask_term, mixBits_and_one, Nat.xor_assoc]

theorem twistMatrix_eq_zero (x : Nat) (hx : x < 2 ^ 32) (h : twistMatrix x = 0) : x = 0 := by
  unfold twistMatrix at h
  rw [Nat.and_one_is_mod, Nat.shiftRight_eq_div_pow] at h
  by_cases hodd : x % 2 = 1
  · rw [if_pos hodd] at h
    have := Nat.xor_eq_zero.mp h
    omega
  · rw [if_neg hodd, Nat.xor_zero] at h
    omega

theorem or_eq_zero (a b : Nat) (h : a ||| b = 0) : a = 0 ∧ b = 0 := by
  have hbits : ∀ i, a.testBit i = false ∧ b.testBit i = false := by
    intro i
    have hi := congrArg (fun x => Nat.testBit x i) h
    simp only [Nat.testBit_or, Nat.zero_testBit] at hi
    revert hi
    cases a.testBit i <;> cases b.testBit i <;> simp
  constructor
  · apply Nat.eq_of_testBit_eq
    intro i
    rw [(hbits i).1, Nat.zero_testBit]
  · apply Nat.eq_of_testBit_eq
    intro i
    rw [(hbits i).2, Nat.zero_testBit]

theorem mixBits_lt (s0 s1 : Nat) : mixBits s0 s1 < 2 ^ 32 := by
  unfold mixBits hiBit loBits
  exact Nat.or_lt_two_pow (Nat.and_lt_two_pow _ (by norm_num)) (Nat.and_lt_two_pow _ (by norm_num))

/-- A zero twist of a zero word: the top bit of `s0` and the low 31 bits of
`s1` are `0`. -/
theorem twist_eq_zero (m s0 s1 : Nat) (hm : m = 0) (h : twist m s0 s1 = 0) :
    hiBit s0 = 0 ∧ loBits s1 = 0 := by
  rw [twist_eq_xor_twistMatrix, hm, Nat.zero_xor] at h
  have hmix := twistMatrix_eq_zero _ (mixBits_lt s0 s1) h
  exact or_eq_zero _ _ hmix

theorem word_eq_zero (w : Nat) (hw : w < 2 ^ 32) (h1 : hiBit w = 0) (h2 : loBits w = 0) :
    w = 0 := by
  unfold hiBit at h1
  unfold loBits at h2
  have e : w &&& (0x80000000 ||| 0x7fffffff) = (w &&& 0x80000000) ||| (w &&& 0x7fffffff) :=
    Nat.and_or_distrib_left _ _ _
  have e2 : (0x80000000 ||| 0x7fffffff : Nat) = 2 ^ 32 - 1 := by norm_num; rfl
  rw [h1, h2, e2, Nat.and_pow_two_sub_one_eq_mod, Nat.mod_eq_of_lt hw] at e
  exact e

/-- The second loop of `reload` reads, `227` places back, a word already
renewed, and otherwise words of the state it started from. -/
theorem reloadLoop2_read (i : Nat) :
    ∀ (p : Nat) (st : StateVec), N - M ≤ p → p + (i - 1) ≤ N → ∀ j,
      (reloadLoop2 i p st).2.read j =
        if p ≤ j ∧ j < p + (i - 1) then
          twist ((reloadLoop2 i p st).2.read (j + M - N)) (st.read j) (st.read (j + 1))
        else st.read j := by
  induction i with
  | zero =>
    intro p st _ _ j
    rw [if_neg (by omega)]
    rfl
  | succ i ih =>
    intro p st hlo hp j
    have hN : N = 624 := rfl
    have hM : M = 397 := rfl
    by_cases hi : i ≠ 0
    · have hpN : p < N := by omega
      have hstep : reloadLoop2 (i + 1) p st = reloadLoop2 i (p + 1)
          (st.write p (twist (st.read (p + M - N)) (st.read p) (st.read (p + 1)))) := by
        rw [reloadLoop2, if_pos hi]
      rw [hstep]
      have key := ih (p + 1)
        (st.write p (twist (st.read (p + M - N)) (st.read p) (st.read (p + 1))))
        (by omega) (by omega) j
      by_cases hj : p + 1 ≤ j ∧ j < p + 1 + (i - 1)
      · rw [if_pos hj] at key
        rw [if_pos (by omega), key, StateVec.read_write_ne _ _ _ _ hpN (by omega),
          StateVec.read_write_ne _ _ _ _ hpN (by omega)]
      · rw [if_neg hj] at key
        by_cases hjp : j = p
        · subst hjp
          rw [if_pos (by omega), key, StateVec.read_write_same _ _ _ hpN]
          rw [reloadLoop2_read_below i (j + 1) _ (by omega) (j + M - N) (by omega),
            StateVec.read_write_ne _ _ _ _ hpN (by omega)]
        · rw [if_neg (by omega), key, StateVec.read_write_ne _ _ _ _ hpN hjp]
    · have hz : i = 0 := by omega
      subst hz
      rw [reloadLoop2, if_neg hi, if_neg (by omega)]

/-- After `reload`, each word from `N - M` to `N - 2` is the twist of the
renewed word `227` places back and two words of the state before. -/
theorem reload_read_mid (g : Gen) (j : Nat) (h1 : N - M ≤ j) (h2 : j < N - 1) :
    (reload g).state.read j =
      twist ((reload g).state.read (j + M - N)) (g.state.read j) (g.state.read (j + 1)) := by
  have hN : N = 624 := rfl
  have hM : M = 397 := rfl
  have hp1 : (reloadLoop1 (N - M) 0 g.state).1 = N - M := by
    rw [reloadLoop1_fst]; omega
  have hp2 : (reloadLoop2 M (reloadLoop1 (N - M) 0 g.state).1
      (reloadLoop1 (N - M) 0 g.state).2).1 = N - 1 := by
    rw [reloadLoop2_fst, hp1]; omega
  unfold reload
  dsimp only
  rw [hp2, StateVec.read_write_ne _ _ _ _ (by omega) (by omega),
    StateVec.read_write_ne _ _ _ _ (by omega) (by omega)]
  rw [hp1, reloadLoop2_read M (N - M) _ (le_refl _) (by omega) j, if_pos (by omega)]
  rw [reloadLoop1_read (N - M) 0 g.state (by omega) j, if_neg (by omega),
    reloadLoop1_read (N - M) 0 g.state (by omega) (j + 1), if_neg (by omega)]

/-- After `reload`, the last word is the twist of the renewed words `396` and
`0` and the last word of the state before. -/
theorem reload_read_last (g : Gen) :
    (reload g).state.read (N - 1) =
      twist ((reload g).state.read (M - 1)) (g.state.read (N - 1))
        ((reload g).state.read 0) := by
  have hN : N = 624 := rfl
  have hM : M = 397 := rfl
  have hp1 : (reloadLoop1 (N - M) 0 g.state).1 = N - M := by
    rw [reloadLoop1_fst]; omega
  have hp2 : (reloadLoop2 M (reloadLoop1 (N - M) 0 g.state).1
      (reloadLoop1 (N - M) 0 g.state).2).1 = N - 1 := by
    rw [reloadLoop2_fst, hp1]; omega
  unfold reload
  dsimp only
  rw [hp2, StateVec.read_write_same _ _ _ (by omega),
    StateVec.read_write_ne _ _ _ _ (by omega) (by omega),
    StateVec.read_write_ne _ _ _ _ (by omega) (by omega)]
  have e : N - 1 + M - N = M - 1 := by omega
  rw [e, hp1]
  rw [reloadLoop2_read M (N - M) _ (le_refl _) (by omega) (N - 1), if_neg (by omega),
    reloadLoop1_read (N - M) 0 g.state (by omega) (N - 1), if_neg (by omega)]

/-- The refresh is one-to-one at zero: `reload` sends a state of 32-bit words
that is not degenerate to one that is not degenerate. -/
theorem reload_nondegenerate (g : Gen) (hw : Words32 g) (hnd : Nondegenerate g.state) :
    Nondegenerate (reload g).state := by
  have hN : N = 624 := rfl
  have hM : M = 397 := rfl
  by_contra hcon
  have hnew0hi : hiBit ((reload g).state.read 0) = 0 := by
    by_contra h
    exact hcon (Or.inl h)
  have hnew : ∀ i, 1 ≤ i → i < N → (reload g).state.read i = 0 := by
    intro i h1 h2
    by_contra h
    exact hcon (Or.inr ⟨i, h1, h2, h⟩)
  have hw2 := reload_words32 g hw
  have hlast := reload_read_last g
  rw [hnew (N - 1) (by omega) (by omega)] at hlast
  obtain ⟨h623hi, hnew0lo⟩ := twist_eq_zero _ _ _ (hnew (M - 1) (by omega) (by omega)) hlast.symm
  have hnew0 : (reload g).state.read 0 = 0 := word_eq_zero _ (hw2 0) hnew0hi hnew0lo
  have hnewall : ∀ i, i < N → (reload g).state.read i = 0 := by
    intro i hi
    by_cases h0 : i = 0
    · rw [h0]; exact hnew0
    · exact hnew i (by omega) hi
  have hmid : ∀ j, N - M ≤ j → j < N - 1 →
      hiBit (g.state.read j) = 0 ∧ loBits (g.state.read (j + 1)) = 0 := by
    intro j h1 h2
    have h := reload_read_mid g j h1 h2
    rw [hnewall j (by omega)] at h
    exact twist_eq_zero _ _ _ (hnewall (j + M - N) (by omega)) h.symm
  have hhigh : ∀ j, N - M + 1 ≤ j → j < N → g.state.read j = 0 := by
    intro j h1 h2
    have hlo : loBits (g.state.read j) = 0 := by
      have h := (hmid (j - 1) (by omega) (by omega)).2
      have e : j - 1 + 1 = j := by omega
      rw [e] at h
      exact h
    have hhi : hiBit (g.state.read j) = 0 := by
      by_cases hj : j < N - 1
      · exact (hmid j (by omega) hj).1
      · have e : j = N - 1 := by omega
        rw [e]
        exact h623hi
    exact word_eq_zero _ (hw j) hhi hlo
  have hlow : ∀ j, j < N - M →
      hiBit (g.state.read j) = 0 ∧ loBits (g.state.read (j + 1)) = 0 := by
    intro j hj
    have h := reload_read_low g j hj
    rw [hnewall j (by omega)] at h
    exact twist_eq_zero _ _ _ (hhigh (j + M) (by omega) (by omega)) h.symm
  rcases hnd with h | ⟨i, h1, h2, h⟩
  · exact h (hlow 0 (by omega)).1
  · apply h
    by_cases hi : i ≤ N - M
    · have hlo : loBits (g.state.read i) = 0 := by
        have h := (hlow (i - 1) (by omega)).2
        have e : i - 1 + 1 = i := by omega
        rw [e] at h
        exact h
      have hhi : hiBit (g.state.read i) = 0 := by
        by_cases hlt : i < N - M
        · exact (hlow i hlt).1
        · exact (hmid i (by omega) (by omega)).1
      exact word_eq_zero _ (hw i) hhi hlo
    · exact hhigh i (by omega) h2

/-- A state that is not degenerate has a word that is not `0`. -/
theorem nondegenerate_exists (st : StateVec) (h : Nondegenerate st) :
    ∃ i, i < 624 ∧ st.read i ≠ 0 := by
  rcases h with h | ⟨i, _, h2, h⟩
  · refine ⟨0, by norm_num, ?_⟩
    intro h0
    apply h
    rw [h0]
    rfl
  · exact ⟨i, h2, h⟩

theorem refreshed_keeps (g : Gen) (hw : Words32 g) (hnd : Nondegenerate g.state) :
    Words32 (refreshed g) ∧ Nondegenerate (refreshed g).state := by
  by_cases hz : g.left = 0
  · rw [refreshed_of_eq g hz]
    exact ⟨reload_words32 g hw, reload_nondegenerate g hw hnd⟩
  · rw [refreshed_of_ne g hz]
    exact ⟨hw, hnd⟩

/-- Calls of `get()` keep a state of 32-bit words that is not degenerate so. -/
theorem afterDraws_keeps (n : Nat) :
    ∀ g : Gen, Words32 g → Nondegenerate g.state →
      Words32 (afterDraws n g) ∧ Nondegenerate (afterDraws n g).state := by
  induction n with
  | zero => intro g hw hnd; exact ⟨hw, hnd⟩
  | succ n ih =>
    intro g hw hnd
    rw [afterDraws]
    have hk := refreshed_keeps g hw hnd
    have hs : (get g).2.state = (refreshed g).state := by rw [get_snd]
    apply ih
    · intro i
      rw [hs]
      exact hk.1 i
    · rw [hs]
      exact hk.2

theorem seed_keeps (s : Nat) (g0 : Gen) :
    Words32 (seed s g0) ∧ Nondegenerate (seed s g0).state :=
  ⟨words32_seed s g0,
    reload_nondegenerate _ (words32_initializeState s g0) (nondegenerate_initializeState s g0)⟩

/-! ## The draws, one generation of the state after the other -/

theorem get_congr_refreshed (a b : Gen) (h : refreshed a = refreshed b) : get a = get b := by
  apply Prod.ext
  · rw [get_fst, get_fst, h]
  · rw [get_snd, get_snd, h]

theorem nthDraw_add (a b : Nat) (g : Gen) :
    nthDraw (a + b) g = nthDraw b (afterDraws a g) := by
  unfold nthDraw
  rw [afterDraws_add]

/-- With `left == 0` the draws are those of the reloaded generator. -/
theorem nthDraw_of_left_zero (g : Gen) (hl : g.left = 0) (k : Nat) :
    nthDraw k g = nthDraw k (reload g) := by
  have hne : (reload g).left ≠ 0 := by
    rw [reload_left]; norm_num
  have hget : get g = get (reload g) :=
    get_congr_refreshed _ _ (by rw [refreshed_of_eq g hl, refreshed_of_ne _ hne])
  unfold nthDraw
  cases k with
  | zero => rw [afterDraws, afterDraws, hget]
  | succ k => rw [afterDraws, afterDraws, hget]

/-- From a generator with the cursor at `state[0]` and `left = 624`, the draws
after the first 624 are those of the reloaded generator. -/
theorem nthDraw_next_generation (g : Gen) (hn : g.next = 0) (hl : g.left = 624) (k : Nat) :
    nthDraw (624 + k) g = nthDraw k (reload g) := by
  have hg := gen_eq_of_fresh g hn hl
  have hd := (afterDraws_no_reload g.state 624 0 (by omega)).1
  rw [← hg] at hd
  have hleft : (afterDraws 624 g).left = 0 := by
    rw [hd]
    dsimp only
    norm_num
  have hstate : (afterDraws 624 g).state = g.state := by rw [hd]
  rw [nthDraw_add, nthDraw_of_left_zero _ hleft, reload_congr _ g hstate]

theorem generation_fresh (q : Nat) (g : Gen) (hn : g.next = 0) (hl : g.left = 624) :
    (generation q g).next = 0 ∧ (generation q g).left = 624 := by
  cases q with
  | zero => exact ⟨hn, hl⟩
  | succ q => exact ⟨rfl, rfl⟩

/-- Draw number `624 q + k` is draw number `k` of generation `q`. -/
theorem nthDraw_generation (q : Nat) :
    ∀ (g : Gen) (k : Nat), g.next = 0 → g.left = 624 →
      nthDraw (624 * q + k) g = nthDraw k (generation q g) := by
  induction q with
  | zero =>
    intro g k _ _
    rw [Nat.mul_zero, Nat.zero_add]
    rfl
  | succ q ih =>
    intro g k hn hl
    have e : 624 * (q + 1) + k = 624 * q + (624 + k) := by omega
    have hf := generation_fresh q g hn hl
    rw [e, ih g (624 + k) hn hl, nthDraw_next_generation _ hf.1 hf.2]
    rfl

theorem generation_keeps (q : Nat) (g : Gen) (hw : Words32 g) (hnd : Nondegenerate g.state) :
    Words32 (generation q g) ∧ Nondegenerate (generation q g).state := by
  induction q with
  | zero => exact ⟨hw, hnd⟩
  | succ q ih =>
    exact ⟨reload_words32 _ ih.1, reload_nondegenerate _ ih.1 ih.2⟩

theorem temperSpec_zero : temperSpec 0 = 0 := by
  unfold temperSpec
  rfl

/-- From a generator with the cursor at `state[0]`, `left = 624` and a state of
32-bit words that is not degenerate, a draw that is not `0` comes after any
number of draws. -/
theorem exists_nonzero_draw (g : Gen) (hn : g.next = 0) (hl : g.left = 624)
    (hw : Words32 g) (hnd : Nondegenerate g.state) (n : Nat) :
    ∃ m, n ≤ m ∧ nthDraw m g ≠ 0 := by
  have hk := generation_keeps n g hw hnd
  have hf := generation_fresh n g hn hl
  obtain ⟨i, hi, hne⟩ := nondegenerate_exists _ hk.2
  refine ⟨624 * n + i, by omega, ?_⟩
  rw [nthDraw_generation n g i hn hl, nthDraw_of_fresh _ hf.1 hf.2 i (by omega)]
  intro h0
  apply hne
  exact temperSpec_injective _ _ (h0.trans temperSpec_zero.symm)

theorem words32_constGen (w : Nat) (hw : w < 2 ^ 32) : Words32 (constGen w) := by
  intro i
  by_cases hi : i < N
  · rw [constGen_read w i hi]; exact hw
  · rw [StateVec.read_of_ge _ i (by omega)]; norm_num

/-! ## The claims, continued -/

/-- C11, as the code has it. For `0 < max < UINT32_MAX` the sum `max + 1` does
not overflow, and the smallest power of two strictly greater than `max` is
`nextPowerOfTwoNat (max + 1)`.  Below `2^31` that power is a 32-bit value and
`nextPowerOfTwo(max + 1)` returns it; from `2^31` on it is `2^32`, which
`nextPowerOfTwo` wraps to `0`, and `np2 - 1` wraps to the mask `2^32 - 1`. -/
theorem range_overflow_guard (max : Nat) (h0 : 0 < max) (h1 : max < 2 ^ 32 - 1) :
    max + 1 < 2 ^ 32 ∧
    max < nextPowerOfTwoNat (max + 1) ∧
    (∀ k, max < 2 ^ k → nextPowerOfTwoNat (max + 1) ≤ 2 ^ k) ∧
    (max < 2 ^ 31 →
      nextPowerOfTwoNat (max + 1) < 2 ^ 32 ∧
      nextPowerOfTwo (max + 1) = nextPowerOfTwoNat (max + 1) ∧
      max + 1 ≤ nextPowerOfTwo (max + 1)) ∧
    (2 ^ 31 ≤ max →
      nextPowerOfTwoNat (max + 1) = 2 ^ 32 ∧ nextPowerOfTwo (max + 1) = 0 ∧
      rangeMask max = 2 ^ 32 - 1) :=
  nextPowerOfTwo_cases max h0 h1

/-- Counterexample to C11 at `max = 2^31`: the smallest power of two strictly
greater than `max` is `2^32`, which is not a 32-bit value; no power of two
below `2^32` reaches `max + 1`, and `nextPowerOfTwo(max + 1)` returns `0`,
which is less than its argument. -/
theorem range_overflow_counterexample :
    (0 < 2147483648 ∧ 2147483648 < 2 ^ 32 - 1) ∧
      nextPowerOfTwoNat (2147483648 + 1) = 2 ^ 32 ∧
      ¬ nextPowerOfTwoNat (2147483648 + 1) < 2 ^ 32 ∧
      (¬ ∃ k, 2147483648 + 1 ≤ 2 ^ k ∧ 2 ^ k < 2 ^ 32) ∧
      nextPowerOfTwo (2147483648 + 1) = 0 ∧
      ¬ 2147483648 + 1 ≤ nextPowerOfTwo (2147483648 + 1) := by
  have h := nextPowerOfTwo_cases 2147483648 (by norm_num) (by norm_num)
  obtain ⟨_, _, _, _, hbig⟩ := h
  obtain ⟨hp, hn, _⟩ := hbig (by norm_num)
  refine ⟨by norm_num, hp, by rw [hp]; norm_num, ?_, hn, by rw [hn]; norm_num⟩
  rintro ⟨k, hk1, hk2⟩
  have hk : k < 32 := (Nat.pow_lt_pow_iff_right (by norm_num)).mp hk2
  have hpow : 2 ^ k ≤ 2 ^ 31 := Nat.pow_le_pow_right (by norm_num) (by omega)
  omega

/-- Witness of the amended C11 at `max = 5`. -/
theorem range_overflow_guard_witness :
    (0 < 5 ∧ 5 < 2 ^ 32 - 1) ∧ 5 + 1 < 2 ^ 32 ∧ 5 < nextPowerOfTwoNat (5 + 1) :=
  ⟨by norm_num, (range_overflow_guard 5 (by norm_num) (by norm_num)).1,
    (range_overflow_guard 5 (by norm_num) (by norm_num)).2.1⟩

/-- C12. The tempering that `get()` applies is a bijection on 32-bit words:
`get()` returns the tempering of the state word it reads; every 32-bit value
`v` is the tempering of exactly one 32-bit word, and is what `get()` returns on
a generator holding that word; and two different words never give the same
output. -/
theorem temper_bijective :
    (∀ g : Gen, (get g).1 = temperSpec ((refreshed g).state.read (refreshed g).next)) ∧
    (∀ v, v < 2 ^ 32 → ∃! w, w < 2 ^ 32 ∧ temperSpec w = v) ∧
    (∀ v, v < 2 ^ 32 → ∃ w, w < 2 ^ 32 ∧ (get (constGen w)).1 = v) ∧
    (∀ w1 w2, w1 ≠ w2 → temperSpec w1 ≠ temperSpec w2) := by
  refine ⟨get_fst, ?_, ?_, ?_⟩
  · intro v hv
    obtain ⟨w, hw, hwv⟩ := temperSpec_surjective v hv
    refine ⟨w, ⟨hw, hwv⟩, ?_⟩
    intro w2 h2
    exact temperSpec_injective _ _ (h2.2.trans hwv.symm)
  · intro v hv
    obtain ⟨w, hw, hwv⟩ := temperSpec_surjective v hv
    exact ⟨w, hw, (get_constGen w).trans hwv⟩
  · intro w1 w2 hne h
    exact hne (temperSpec_injective _ _ h)

/-- Witness of C12 at the value `0`. -/
theorem temper_bijective_witness :
    (0 : Nat) < 2 ^ 32 ∧ ∃! w, w < 2 ^ 32 ∧ temperSpec w = 0 :=
  ⟨by norm_num, temper_bijective.2.1 0 (by norm_num)⟩

/-- C13, the code at a failing input: the generator constructed with seed `1`
returns `1791095845` from its first call of `get()`, which is not between `0`
and `65536`. -/
theorem get_exceeds_documented_range :
    nthDraw 0 (seed 1 zeroGen) = 1791095845 ∧ ¬ nthDraw 0 (seed 1 zeroGen) ≤ 65536 := by
  have h := seed_one_first zeroGen
  refine ⟨h, ?_⟩
  rw [h]
  norm_num

/-- C15. The three-range loop of `reload` is the circular loop: for every
state, `reload` leaves exactly the words left by the single in-place loop that
assigns `state[i] := twist(state[(i + 397) mod 624], state[i], state[(i + 1) mod 624])`
for `i = 0, 1, ..., 623` in this order, and it ends with cursor `0` and
remaining `624`. -/
theorem reload_eq_reloadCircular (g : Gen) :
    reload g = reloadCircular g ∧ (reload g).state = circularLoop 624 0 g.state ∧
      (reload g).next = 0 ∧ (reload g).left = 624 := by
  have hs : (reload g).state = circularLoop N 0 g.state := by
    rw [reload_congr g ⟨g.state, 0, 0⟩ rfl]
    exact reload_state_eq_circular g.state
  refine ⟨?_, hs, rfl, rfl⟩
  unfold reloadCircular
  apply Gen.ext_fields
  · dsimp only
    exact hs
  · rfl
  · rfl

/-- C16. For all words `m`, `s0`, `s1`, the code's `twist(m, s0, s1)` is the
specification's `m XOR (mix >> 1) XOR (0x9908B0DF if the low bit of mix is 1,
else 0)` with `mix = (s0 AND 0x80000000) OR (s1 AND 0x7FFFFFFF)`: the
branch-free term `(~loBit(s1) + 1) & 0x9908b0df`, computed modulo `2^32`, is
the constant exactly when the low bit of the mixed value is set. -/
theorem twist_eq_twistSpec (m s0 s1 : Nat) :
    twist m s0 s1 = twistSpec m s0 s1 ∧
      ((not32 (loBit s1) + 1) % 2 ^ 32) &&& 0x9908b0df =
        if mixBits s0 s1 &&& 1 = 1 then 0x9908b0df else 0 := by
  have hterm : ((not32 (loBit s1) + 1) % 2 ^ 32) &&& 0x9908b0df =
      if mixBits s0 s1 &&& 1 = 1 then 0x9908b0df else 0 := by
    rw [twist_mask_term, mixBits_and_one]
  refine ⟨?_, hterm⟩
  unfold twist twistSpec
  dsimp only
  rw [hterm]
  rfl

/-- C17. Rejection sampling: for `0 < max < UINT32_MAX`, whenever
`getRange(max)` returns, it returns the masked draw `d_j AND mask` of the least
rank `j >= 1` whose masked draw is at most `max`, `mask` being
`nextPowerOfTwo(max + 1) - 1`, and leaves the generator in the state reached
by `j` calls of `get()`. -/
theorem getRange_rejection (fuel max : Nat) (g : Gen) (r : Nat) (g1 : Gen)
    (h0 : 0 < max) (h1 : max < 2 ^ 32 - 1) (h : getRange fuel max g = some (r, g1)) :
    ∃ j, 1 ≤ j ∧ r = nthDraw (j - 1) g &&& rangeMask max ∧ r ≤ max ∧
      (∀ i, 1 ≤ i → i < j → max < nthDraw (i - 1) g &&& rangeMask max) ∧
      g1 = afterDraws j g := by
  unfold getRange at h
  have hm : max ≠ NV_UINT32_MAX := by
    intro e
    have : max = 4294967295 := e
    omega
  rw [if_neg (by omega), if_neg hm] at h
  obtain ⟨j, _, hr, hle, hg1, hbad⟩ := getRangeLoop_spec fuel _ _ _ _ _ h
  refine ⟨j + 1, by omega, ?_, hle, ?_, hg1⟩
  · rw [Nat.add_sub_cancel]; exact hr
  · intro i hi1 hij
    exact hbad (i - 1) (by omega)

/-- Witness of C17 at `max = 5` on the all-zero generator: the first draw is
`0` and is accepted. -/
theorem getRange_rejection_witness :
    (0 < 5 ∧ 5 < 2 ^ 32 - 1 ∧ getRange 1 5 zeroGen = some (0, (get zeroGen).2)) ∧
      ∃ j, 1 ≤ j ∧ 0 = nthDraw (j - 1) zeroGen &&& rangeMask 5 ∧ 0 ≤ 5 ∧
        (∀ i, 1 ≤ i → i < j → 5 < nthDraw (i - 1) zeroGen &&& rangeMask 5) ∧
        (get zeroGen).2 = afterDraws j zeroGen :=
  ⟨⟨by norm_num, by norm_num, rfl⟩,
    getRange_rejection 1 5 zeroGen 0 (get zeroGen).2 (by norm_num) (by norm_num) rfl⟩

/-- C18. Cursor invariant: every generator reachable from a constructor or
`seed(s)` by calls of `seed`, `get` and `getRange` has `0 <= left <= 624` and
its cursor at offset `624 - left`; hence the word that the next call of
`get()` reads, after its `reload` when `left == 0`, is at an offset of at most
`623`, inside the array. -/
theorem cursor_invariant (g : Gen) (h : Reachable g) :
    0 ≤ g.left ∧ g.left ≤ 624 ∧ (g.next : Int) = 624 - g.left ∧
      (refreshed g).next ≤ 623 := by
  obtain ⟨h0, h1, h2⟩ := reachable_cursor g h
  refine ⟨h0, h1, h2, ?_⟩
  by_cases hz : g.left = 0
  · rw [refreshed_of_eq g hz, reload_next]; norm_num
  · rw [refreshed_of_ne g hz]; omega

/-- Witness of C18 on the generator constructed with seed `1` after one call
of `get()`. -/
theorem cursor_invariant_witness :
    Reachable (get (seed 1 zeroGen)).2 ∧
      0 ≤ (get (seed 1 zeroGen)).2.left ∧ (get (seed 1 zeroGen)).2.left ≤ 624 ∧
      ((get (seed 1 zeroGen)).2.next : Int) = 624 - (get (seed 1 zeroGen)).2.left ∧
      (refreshed (get (seed 1 zeroGen)).2).next ≤ 623 :=
  ⟨Reachable.get _ (Reachable.ctor 1 zeroGen),
    cursor_invariant _ (Reachable.get _ (Reachable.ctor 1 zeroGen))⟩

/-- C19. The generator never falls into the all-zero state: for every seed the
state words are not all zero after `seed(s)`, nor after any further number of
calls of `get()`; `reload` sends a state of 32-bit words in which the top bit
of word `0` and the words `1..623` are not all zero to another such state; and
after any number of draws a draw that is not `0` follows, so that the stream
is not stuck at `0`. -/
theorem never_all_zero (s : Nat) (g0 : Gen) :
    (∃ i, i < 624 ∧ (seed s g0).state.read i ≠ 0) ∧
    (∀ n, Nondegenerate (afterDraws n (seed s g0)).state ∧
      ∃ i, i < 624 ∧ (afterDraws n (seed s g0)).state.read i ≠ 0) ∧
    (∀ g : Gen, Words32 g → Nondegenerate g.state → Nondegenerate (reload g).state) ∧
    (∀ n, ∃ m, n ≤ m ∧ nthDraw m (seed s g0) ≠ 0) := by
  have hs := seed_keeps s g0
  refine ⟨nondegenerate_exists _ hs.2, ?_, reload_nondegenerate, ?_⟩
  · intro n
    have hk := afterDraws_keeps n _ hs.1 hs.2
    exact ⟨hk.2, nondegenerate_exists _ hk.2⟩
  · intro n
    exact exists_nonzero_draw _ rfl rfl hs.1 hs.2 n

/-- Witness of C19 on the generator whose words are all `1`. -/
theorem never_all_zero_witness :
    (Words32 (constGen 1) ∧ Nondegenerate (constGen 1).state) ∧
      Nondegenerate (reload (constGen 1)).state :=
  ⟨⟨words32_constGen 1 (by norm_num),
      Or.inr ⟨1, by norm_num, by norm_num [N], by
        rw [constGen_read 1 1 (by norm_num [N])]; norm_num⟩⟩,
    (never_all_zero 1 zeroGen).2.2.1 (constGen 1) (words32_constGen 1 (by norm_num))
      (Or.inr ⟨1, by norm_num, by norm_num [N], by
        rw [constGen_read 1 1 (by norm_num [N])]; norm_num⟩)⟩

/-- C20. The accesses of `reload` stay inside the state array: its three
ranges make 227, 396 and 1 assignments, which write the offsets `0..623` once
each in increasing order; every offset read lies in `0..623`, being `p + 397`,
`p`, `p + 1` in the first range, `p - 227`, `p`, `p + 1` in the second, and
`396`, `623`, `0` in the last step; and carrying out these accesses gives the
state that `reload` leaves. -/
theorem reload_in_bounds :
    ((reloadTrace1 (N - M) 0).length = 227 ∧ (reloadTrace2 M 227).length = 396 ∧
      reloadTrace.length = 624) ∧
    reloadTrace.map Access.written = (List.range 624).map Int.ofNat ∧
    (∀ a ∈ reloadTrace, (0 ≤ a.read0 ∧ a.read0 ≤ 623) ∧ (0 ≤ a.read1 ∧ a.read1 ≤ 623) ∧
      (0 ≤ a.read2 ∧ a.read2 ≤ 623)) ∧
    (∀ a ∈ reloadTrace, a.written < 227 →
      a.read0 = a.written + 397 ∧ a.read1 = a.written ∧ a.read2 = a.written + 1) ∧
    (∀ a ∈ reloadTrace, 227 ≤ a.written → a.written < 623 →
      a.read0 = a.written - 227 ∧ a.read1 = a.written ∧ a.read2 = a.written + 1) ∧
    (∀ a ∈ reloadTrace, a.written = 623 →
      a.read0 = 396 ∧ a.read1 = 623 ∧ a.read2 = 0) ∧
    ∀ g : Gen, (reload g).state = runTrace reloadTrace g.state := by
  obtain ⟨h1, h2, h3, h4, h5, h6, h7, h8⟩ := reloadTrace_facts
  exact ⟨⟨h1, h2, h3⟩, h4, h5, h6, h7, h8, reload_state_eq_trace⟩

/-- Witness of C20 at the access that the last step of `reload` makes. -/
theorem reload_in_bounds_witness :
    (⟨623, 396, 623, 0⟩ : Access) ∈ reloadTrace ∧
      (0 ≤ (⟨623, 396, 623, 0⟩ : Access).read0 ∧ (⟨623, 396, 623, 0⟩ : Access).read0 ≤ 623) ∧
      (0 ≤ (⟨623, 396, 623, 0⟩ : Access).read1 ∧ (⟨623, 396, 623, 0⟩ : Access).read1 ≤ 623) ∧
      (0 ≤ (⟨623, 396, 623, 0⟩ : Access).read2 ∧ (⟨623, 396, 623, 0⟩ : Access).read2 ≤ 623) :=
  ⟨reloadTrace_last_mem, reload_in_bounds.2.2.1 _ reloadTrace_last_mem⟩

end MTRand
